import Mathlib

/-!
Verification of the quadtree spatial index (src/src/index.ts).

The embedding is shallow: every number is an `Int` (the constructor demands
integer coordinates and the spec restricts the index to an integer coordinate
space), optional JS fields become `Option Int`, thrown exceptions become
`Except String`, and in-place mutation becomes functional update.  JS object
identity (the `===` used by `indexOf`, `remove` and the self-exclusion of
`colliding`) is modelled by giving every element an `id` tag and treating two
element values as the same object exactly when they are equal, `id` included.
-/

namespace QT

/-- Quadrant directions, listed in the insertion-order the source iterates its
children object: NW, NE, SW, SE. -/
inductive Dir : Type where
  | NW
  | NE
  | SW
  | SE
deriving DecidableEq, Repr

/-- ElementRect: x, y are the origin corner and may be absent on a raw element
(validation rejects that); width and height are optional and default to 1 at
each use site.  The `id` field models JS object identity. -/
structure Elem where
  id : Nat
  x : Option Int
  y : Option Int
  width : Option Int
  height : Option Int
deriving DecidableEq, Repr

/-- Reading `item.x`.  On a missing coordinate JS arithmetic would produce NaN;
every public operation validates elements before touching geometry, so the
default value is never observed by the algorithms and is arbitrary. -/
def Elem.ex (e : Elem) : Int := e.x.getD 0

/-- Reading `item.y`. -/
def Elem.ey (e : Elem) : Int := e.y.getD 0

/-- Reading `item.width != null ? item.width : 1`. -/
def Elem.ew (e : Elem) : Int := e.width.getD 1

/-- Reading `item.height != null ? item.height : 1`. -/
def Elem.eh (e : Elem) : Int := e.height.getD 1

/-- Bounding box collision algorithm on raw coordinates (index.ts lines
692-698), already with the default extents substituted:
not (a.x >= b.x + b.w or a.x + a.w <= b.x or a.y >= b.y + b.h or a.y + a.h <= b.y). -/
def bboxCollide (ax aw ay ah bx bw bY bh : Int) : Bool :=
  !(decide (ax ≥ bx + bw) || decide (ax + aw ≤ bx) ||
    decide (ay ≥ bY + bh) || decide (ay + ah ≤ bY))

/-- boundingBoxCollision applied to two elements, widths and heights defaulting
to 1 when absent exactly as in the source. -/
def boundingBoxCollision (a b : Elem) : Bool :=
  bboxCollide a.ex a.ew a.ey a.eh b.ex b.ew b.ey b.eh

/-- A concrete rectangle: the quadrant records returned by splitTree, whose
four fields are always present. -/
structure Rect where
  x : Int
  y : Int
  width : Int
  height : Int
deriving DecidableEq, Repr

/-- boundingBoxCollision applied to an element and a quadrant rectangle (as in
`fitting`); same formula, the rectangle fields are always present. -/
def collideRect (a : Elem) (r : Rect) : Bool :=
  bboxCollide a.ex a.ew a.ey a.eh r.x r.width r.y r.height

/-- Math.max(Math.floor(w / 2), 1): width of the two west children. -/
def leftSplit (w : Int) : Int := max (Int.fdiv w 2) 1

/-- Math.ceil(w / 2): width of the two east children.  For every integer w,
the ceiling of w/2 equals the floor of (w+1)/2. -/
def rightSplit (w : Int) : Int := Int.fdiv (w + 1) 2

/-- The four quadrant rectangles of a node. -/
structure Quadrants where
  nw : Rect
  ne : Rect
  sw : Rect
  se : Rect
deriving DecidableEq, Repr

/-- splitTree (index.ts lines 719-750): the quadrant tiling of a node with
origin (qx, qy) and dimensions qw x qh. -/
def splitTree (qx qy qw qh : Int) : Quadrants :=
  let leftWidth := leftSplit qw
  let rightWidth := rightSplit qw
  let topHeight := leftSplit qh
  let bottomHeight := rightSplit qh
  { nw := ⟨qx, qy, leftWidth, topHeight⟩
    ne := ⟨qx + leftWidth, qy, rightWidth, topHeight⟩
    sw := ⟨qx, qy + topHeight, leftWidth, bottomHeight⟩
    se := ⟨qx + leftWidth, qy + topHeight, rightWidth, bottomHeight⟩ }

/-- fitting (index.ts lines 766-776): the quadrants of the node whose
rectangle overlaps the element, in NW, NE, SW, SE order. -/
def fitting (e : Elem) (qx qy qw qh : Int) : List Dir :=
  let q := splitTree qx qy qw qh
  (if collideRect e q.nw then [Dir.NW] else []) ++
    (if collideRect e q.ne then [Dir.NE] else []) ++
    (if collideRect e q.sw then [Dir.SW] else []) ++
    (if collideRect e q.se then [Dir.SE] else [])

/-- calculateDirection (index.ts lines 701-717).  getCenter of the node is
(floor(width / 2) + x, floor(height / 2) + y); the default extent 1 of
getCenter never applies because tree nodes always carry their dimensions. -/
def calculateDirection (e : Elem) (qx qy qw qh : Int) : Dir :=
  let cx := Int.fdiv qw 2 + qx
  let cy := Int.fdiv qh 2 + qy
  if e.ex < cx then (if e.ey < cy then Dir.NW else Dir.SW)
  else (if e.ey < cy then Dir.NE else Dir.SE)

/-- validateElement (index.ts lines 753-763).  The `typeof element` check can
not fail in a typed model; `(element.width || 0) < 0` is width when present
(a present 0 and an absent width both yield 0) and 0 otherwise. -/
def validateElement (e : Elem) : Except String Unit :=
  if e.x.isNone ∨ e.y.isNone then
    Except.error "Coordinates properties are missing."
  else if e.width.getD 0 < 0 ∨ e.height.getD 0 < 0 then
    Except.error "Width and height must be positive integers."
  else Except.ok ()

/-- The validation loop at the top of pushAll: validate every item, stopping
with the error of the first invalid one. -/
def validateAll : List Elem → Except String Unit
  | [] => Except.ok ()
  | e :: rest =>
    match validateElement e with
    | Except.error m => Except.error m
    | Except.ok _ => validateAll rest

/-- A quadtree node: region origin and dimensions, maxElements, the local
contents and oversized stores, the cumulative subtree size counter, and the
four lazily created child slots (null = not created). -/
inductive QuadTree : Type where
  | node (x y width height maxElements : Int)
      (contents oversized : List Elem) (size : Int)
      (nw ne sw se : Option QuadTree) : QuadTree

def QuadTree.x : QuadTree → Int
  | .node v _ _ _ _ _ _ _ _ _ _ _ => v

def QuadTree.y : QuadTree → Int
  | .node _ v _ _ _ _ _ _ _ _ _ _ => v

def QuadTree.width : QuadTree → Int
  | .node _ _ v _ _ _ _ _ _ _ _ _ => v

def QuadTree.height : QuadTree → Int
  | .node _ _ _ v _ _ _ _ _ _ _ _ => v

def QuadTree.maxElements : QuadTree → Int
  | .node _ _ _ _ v _ _ _ _ _ _ _ => v

def QuadTree.contents : QuadTree → List Elem
  | .node _ _ _ _ _ v _ _ _ _ _ _ => v

def QuadTree.oversized : QuadTree → List Elem
  | .node _ _ _ _ _ _ v _ _ _ _ _ => v

def QuadTree.size : QuadTree → Int
  | .node _ _ _ _ _ _ _ v _ _ _ _ => v

def QuadTree.childNW : QuadTree → Option QuadTree
  | .node _ _ _ _ _ _ _ _ v _ _ _ => v

def QuadTree.childNE : QuadTree → Option QuadTree
  | .node _ _ _ _ _ _ _ _ _ v _ _ => v

def QuadTree.childSW : QuadTree → Option QuadTree
  | .node _ _ _ _ _ _ _ _ _ _ v _ => v

def QuadTree.childSE : QuadTree → Option QuadTree
  | .node _ _ _ _ _ _ _ _ _ _ _ v => v

/-- Child slot lookup by direction. -/
def QuadTree.childAt (t : QuadTree) : Dir → Option QuadTree
  | Dir.NW => t.childNW
  | Dir.NE => t.childNE
  | Dir.SW => t.childSW
  | Dir.SE => t.childSE

/-- Size field of an optional child; an uncreated slot contributes 0. -/
def sizeField : Option QuadTree → Int
  | none => 0
  | some c => c.size

/-- The geometry each child closure of the constructor (index.ts lines 69-122)
captures; it coincides with the corresponding splitTree quadrant. -/
def childRect (qx qy qw qh : Int) : Dir → Rect
  | Dir.NW => ⟨qx, qy, leftSplit qw, leftSplit qh⟩
  | Dir.NE => ⟨qx + leftSplit qw, qy, rightSplit qw, leftSplit qh⟩
  | Dir.SW => ⟨qx, qy + leftSplit qh, leftSplit qw, rightSplit qh⟩
  | Dir.SE => ⟨qx + leftSplit qw, qy + leftSplit qh, rightSplit qw, rightSplit qh⟩

/-- The `create()` closure of a child slot: a fresh node with the quadrant
geometry and the parent maxElements. -/
def childCreate (qx qy qw qh qm : Int) (d : Dir) : QuadTree :=
  let r := childRect qx qy qw qh d
  .node r.x r.y r.width r.height qm [] [] 0 none none none none

/-- Constructor options object ({ width, height, x?, y?, maxElements? }). -/
structure QuadTreeOptions where
  width : Option Int
  height : Option Int
  x : Option Int
  y : Option Int
  maxElements : Option Int
deriving DecidableEq, Repr

/-- JS `v || dflt` on an optional integer: a missing value and a present 0 are
both falsy and give the default. -/
def jsOr (v : Option Int) (dflt : Int) : Int :=
  match v with
  | none => dflt
  | some w => if w = 0 then dflt else w

/-- The QuadTree constructor (index.ts lines 43-66).  The x/y integrality
check can not fail in the Int model.  Note maxElements runs through `|| 1`
before the `< 1` check, so a supplied 0 silently becomes 1. -/
def QuadTree.make (o : QuadTreeOptions) : Except String QuadTree :=
  match o.width, o.height with
  | none, _ => Except.error "Missing quadtree dimensions."
  | _, none => Except.error "Missing quadtree dimensions."
  | some w, some h =>
    let qx := jsOr o.x 0
    let qy := jsOr o.y 0
    let qm := jsOr o.maxElements 1
    if w < 1 ∨ h < 1 then
      Except.error "Dimensions must be positive integers."
    else if qm < 1 then
      Except.error
        "The maximum number of elements before a split must be a positive integer."
    else Except.ok (.node qx qy w h qm [] [] 0 none none none none)

/-- clear (index.ts lines 137-148): empty both stores, zero the size and null
every child slot. -/
def QuadTree.clear : QuadTree → QuadTree
  | .node qx qy qw qh qm _ _ _ _ _ _ _ =>
    .node qx qy qw qh qm [] [] 0 none none none none

/-- All elements stored in a subtree: the local oversized then contents lists
(the order every traversal visits them locally) followed by the elements of
the four children in NW, NE, SW, SE order. -/
def dfsElems : QuadTree → List Elem
  | .node _ _ _ _ _ cs os _ c1 c2 c3 c4 =>
    os ++ cs ++
      ((match c1 with | some c => dfsElems c | none => []) ++
        (match c2 with | some c => dfsElems c | none => []) ++
        (match c3 with | some c => dfsElems c | none => []) ++
        (match c4 with | some c => dfsElems c | none => []))

/-- Elements of an optional subtree. -/
def dfsElemsOpt : Option QuadTree → List Elem
  | none => []
  | some c => dfsElems c

/-- Every node of a subtree, the node itself first. -/
def allNodes : QuadTree → List QuadTree
  | t@(.node _ _ _ _ _ _ _ _ c1 c2 c3 c4) =>
    t ::
      ((match c1 with | some c => allNodes c | none => []) ++
        (match c2 with | some c => allNodes c | none => []) ++
        (match c3 with | some c => allNodes c | none => []) ++
        (match c4 with | some c => allNodes c | none => []))

/-- Structural weight of a tree, the termination measure of the queue-based
traversals. -/
def QuadTree.weight : QuadTree → Nat
  | .node _ _ _ _ _ _ _ _ c1 c2 c3 c4 =>
    1 + (match c1 with | some c => c.weight | none => 0)
      + (match c2 with | some c => c.weight | none => 0)
      + (match c3 with | some c => c.weight | none => 0)
      + (match c4 with | some c => c.weight | none => 0)

/-- The live children of a node in NW, NE, SW, SE order, as every full
traversal enqueues them. -/
def liveChildren : QuadTree → List QuadTree
  | .node _ _ _ _ _ _ _ _ c1 c2 c3 c4 =>
    (match c1 with | some c => [c] | none => []) ++
      (match c2 with | some c => [c] | none => []) ++
      (match c3 with | some c => [c] | none => []) ++
      (match c4 with | some c => [c] | none => [])

/-- The mutable state of the pushAll worklist loop at one node: the node
contents, oversized and size fields plus the four per-direction fifo candidate
batches (an absent candidate and an empty batch coincide: a candidate is
created exactly when its first element is appended). -/
structure PushState where
  contents : List Elem
  oversized : List Elem
  size : Int
  bNW : List Elem
  bNE : List Elem
  bSW : List Elem
  bSE : List Elem
deriving DecidableEq, Repr

def PushState.batchAt (s : PushState) : Dir → List Elem
  | Dir.NW => s.bNW
  | Dir.NE => s.bNE
  | Dir.SW => s.bSW
  | Dir.SE => s.bSE

/-- Append an element to the fifo candidate batch of one direction. -/
def PushState.addBatch (s : PushState) (d : Dir) (e : Elem) : PushState :=
  match d with
  | Dir.NW => { s with bNW := s.bNW ++ [e] }
  | Dir.NE => { s with bNE := s.bNE ++ [e] }
  | Dir.SW => { s with bSW := s.bSW ++ [e] }
  | Dir.SE => { s with bSE := s.bSE ++ [e] }

/-- The flush loop inside the split branch of pushAll: append every element
of the given list (the node contents at the moment the capacity was exceeded)
to the fifo candidate batch of its own single fitting quadrant. -/
def flushList (qx qy qw qh : Int) (s : PushState) (l : List Elem) : PushState :=
  l.foldl (fun acc c => acc.addBatch ((fitting c qx qy qw qh).headD Dir.NW) c) s

/-- One iteration of the element loop of pushAll (index.ts lines 176-209).
The size counter is incremented first; an element that does not fit exactly
one quadrant, or arrives at a node of minimal extent, joins oversized; while
size - oversized.length stays within maxElements it joins contents; otherwise
it is routed to its single fitting quadrant and every element of contents
(each single-fit by construction, hence the headD default is never taken) is
flushed to its own quadrant batch and contents is cleared. -/
def pushStep (qx qy qw qh qm : Int) (s : PushState) (e : Elem) : PushState :=
  let size' := s.size + 1
  let fits := fitting e qx qy qw qh
  if fits.length ≠ 1 ∨ qw = 1 ∨ qh = 1 then
    { s with size := size', oversized := s.oversized ++ [e] }
  else if size' - (s.oversized.length : Int) ≤ qm then
    { s with size := size', contents := s.contents ++ [e] }
  else
    let s1 := { s with size := size', contents := ([] : List Elem) }
    let s2 := s1.addBatch (fits.headD Dir.NW) e
    flushList qx qy qw qh s2 s.contents

/-- Recursion bound for the insertion worklist: width + height of a node.
Every routing step descends to a child both of whose dimensions are strictly
smaller, so this quantity strictly dominates the depth of the descent. -/
def qtMeasure (t : QuadTree) : Nat := t.width.toNat + t.height.toNat

/-- Enqueueing one fifo candidate: an empty batch means no candidate was
created and the child slot is left untouched; otherwise the child is obtained
from the lazy getter (the cached tree, or a fresh one from the create closure)
and the batch is pushed into it. -/
def optPush (rec : QuadTree → List Elem → QuadTree) (qx qy qw qh qm : Int)
    (d : Dir) (c : Option QuadTree) (b : List Elem) : Option QuadTree :=
  if b.isEmpty then c
  else some (rec (c.getD (childCreate qx qy qw qh qm d)) b)

/-- The worklist of pushAll after validation (index.ts lines 165-217),
presented recursively: process the batch of the current node, then push each
non-empty per-direction candidate batch into the corresponding child.  The
source drains sibling candidates from a FIFO; since distinct candidates touch
disjoint subtrees the final tree is the same.  The fuel argument only bounds
the recursion depth: the public entry points supply width + height, which the
descent can never exhaust, so the fuel-out branch is unreachable from them. -/
def pushListFuel : Nat → QuadTree → List Elem → QuadTree
  | 0, t, _ => t
  | fuel + 1, .node qx qy qw qh qm cs os sz c1 c2 c3 c4, items =>
    let s := items.foldl (pushStep qx qy qw qh qm)
      (PushState.mk cs os sz [] [] [] [])
    .node qx qy qw qh qm s.contents s.oversized s.size
      (optPush (pushListFuel fuel) qx qy qw qh qm Dir.NW c1 s.bNW)
      (optPush (pushListFuel fuel) qx qy qw qh qm Dir.NE c2 s.bNE)
      (optPush (pushListFuel fuel) qx qy qw qh qm Dir.SW c3 s.bSW)
      (optPush (pushListFuel fuel) qx qy qw qh qm Dir.SE c4 s.bSE)

/-- pushAll (index.ts lines 157-220): validate every item up front — before
any mutation — then run the insertion worklist.  (Element observation is the
reactive binding excluded from the core by the spec.) -/
def pushAll (t : QuadTree) (items : List Elem) : Except String QuadTree :=
  match validateAll items with
  | Except.error m => Except.error m
  | Except.ok _ => Except.ok (pushListFuel (qtMeasure t) t items)

/-- push (index.ts lines 152-154): pushAll of a singleton batch. -/
def push (t : QuadTree) (item : Elem) : Except String QuadTree :=
  pushAll t [item]

/-- remove (index.ts lines 223-260) after validation: search oversized first,
then contents, by object identity, removing the first hit and decrementing
size; otherwise descend into the child slot selected by calculateDirection,
and on success decrement size and null the child slot when its size reached
zero.  A failed removal mutates nothing, so the input tree is returned. -/
def removeOk : QuadTree → Elem → Bool × QuadTree
  | .node qx qy qw qh qm cs os sz c1 c2 c3 c4, e =>
    let t := QuadTree.node qx qy qw qh qm cs os sz c1 c2 c3 c4
    if os.contains e then
      (true, .node qx qy qw qh qm cs (os.erase e) (sz - 1) c1 c2 c3 c4)
    else if cs.contains e then
      (true, .node qx qy qw qh qm (cs.erase e) os (sz - 1) c1 c2 c3 c4)
    else
      let d := calculateDirection e qx qy qw qh
      if d = Dir.NW then
        match c1 with
        | none => (false, t)
        | some c =>
          let r := removeOk c e
          if r.1 then
            (true, .node qx qy qw qh qm cs os (sz - 1)
              (if r.2.size = 0 then none else some r.2) c2 c3 c4)
          else (false, t)
      else if d = Dir.NE then
        match c2 with
        | none => (false, t)
        | some c =>
          let r := removeOk c e
          if r.1 then
            (true, .node qx qy qw qh qm cs os (sz - 1)
              c1 (if r.2.size = 0 then none else some r.2) c3 c4)
          else (false, t)
      else if d = Dir.SW then
        match c3 with
        | none => (false, t)
        | some c =>
          let r := removeOk c e
          if r.1 then
            (true, .node qx qy qw qh qm cs os (sz - 1)
              c1 c2 (if r.2.size = 0 then none else some r.2) c4)
          else (false, t)
      else
        match c4 with
        | none => (false, t)
        | some c =>
          let r := removeOk c e
          if r.1 then
            (true, .node qx qy qw qh qm cs os (sz - 1)
              c1 c2 c3 (if r.2.size = 0 then none else some r.2))
          else (false, t)

/-- remove with its leading validateElement (which throws on a malformed
argument). -/
def remove (t : QuadTree) (item : Elem) : Except String (Bool × QuadTree) :=
  match validateElement item with
  | Except.error m => Except.error m
  | Except.ok _ => Except.ok (removeOk t item)

/-- Total structural weight of a traversal queue. -/
def queueWeight (q : List QuadTree) : Nat := (q.map QuadTree.weight).sum

theorem queueWeight_append (a b : List QuadTree) :
    queueWeight (a ++ b) = queueWeight a + queueWeight b := by
  simp [queueWeight]

theorem liveChildren_weight_lt : ∀ t : QuadTree, queueWeight (liveChildren t) < t.weight
  | .node qx qy qw qh qm cs os sz c1 c2 c3 c4 => by
    cases c1 <;> cases c2 <;> cases c3 <;> cases c4 <;>
      simp [liveChildren, QuadTree.weight, queueWeight] <;> omega

/-- The element enumeration performed by each/forEach and (unfiltered) by
find (index.ts lines 456-508): breadth-first over a FIFO of nodes, visiting
oversized then contents locally and enqueueing every live child. -/
def eachList : List QuadTree → List Elem
  | [] => []
  | t :: rest => (t.oversized ++ t.contents) ++ eachList (rest ++ liveChildren t)
termination_by q => queueWeight q
decreasing_by
  have h := liveChildren_weight_lt t
  simp [queueWeight] at *
  omega

/-- find (index.ts lines 483-508): the same breadth-first traversal keeping
the elements that satisfy the predicate. -/
def findAux (p : Elem → Bool) : List QuadTree → List Elem
  | [] => []
  | t :: rest =>
    (t.oversized.filter p ++ t.contents.filter p) ++ findAux p (rest ++ liveChildren t)
termination_by q => queueWeight q
decreasing_by
  have h := liveChildren_weight_lt t
  simp [queueWeight] at *
  omega

/-- Public find on a tree. -/
def QuadTree.find (t : QuadTree) (p : Elem → Bool) : List Elem := findAux p [t]

/-- The child directions colliding/onCollision will visit at one node
(index.ts lines 295-313 and 361-379): the fitting quadrants, or — when there
are none — the right/bottom out-of-bound fallback: NE when the item starts at
or beyond the right edge, SW when at or beyond the bottom edge, SE appended
when exactly one trigger fired and SE alone when both fired. -/
def collidingFits (e : Elem) (qx qy qw qh : Int) : List Dir :=
  let fits := fitting e qx qy qw qh
  if fits.length = 0 then
    let f1 := (if e.ex ≥ qx + qw then [Dir.NE] else []) ++
      (if e.ey ≥ qy + qh then [Dir.SW] else [])
    if f1.length > 0 then
      (if f1.length = 1 then f1 ++ [Dir.SE] else [Dir.SE])
    else f1
  else fits

/-- The live children in the listed directions.  The direction lists produced
by fitting and by the colliding fallback are always subsequences of the
canonical NW, NE, SW, SE order, so filtering the canonical order preserves the
visit order of the source loop. -/
def childrenToward (t : QuadTree) (ds : List Dir) : List QuadTree :=
  (if Dir.NW ∈ ds then (match t.childNW with | some c => [c] | none => []) else []) ++
    (if Dir.NE ∈ ds then (match t.childNE with | some c => [c] | none => []) else []) ++
    (if Dir.SW ∈ ds then (match t.childSW with | some c => [c] | none => []) else []) ++
    (if Dir.SE ∈ ds then (match t.childSE with | some c => [c] | none => []) else [])

theorem childrenToward_weight_le (t : QuadTree) (ds : List Dir) :
    queueWeight (childrenToward t ds) ≤ queueWeight (liveChildren t) := by
  cases t with
  | node qx qy qw qh qm cs os sz c1 c2 c3 c4 =>
    simp only [childrenToward, liveChildren, QuadTree.childNW, QuadTree.childNE,
      QuadTree.childSW, QuadTree.childSE, queueWeight_append]
    have h : ∀ (P : Prop) [Decidable P] (l : List QuadTree),
        queueWeight (if P then l else []) ≤ queueWeight l := by
      intro P _ l
      split
      · exact le_rfl
      · simp [queueWeight]
    exact Nat.add_le_add (Nat.add_le_add (Nat.add_le_add (h _ _) (h _ _)) (h _ _)) (h _ _)

/-- colliding (index.ts lines 272-323): breadth-first traversal testing the
item (excluding itself by identity) against local oversized then contents
with the collision predicate, descending via collidingFits.  The source
defaults the predicate to boundingBoxCollision; onCollision (lines 338-389)
runs the identical traversal invoking a callback on each match instead of
collecting them. -/
def collidingAux (e : Elem) (f : Elem → Elem → Bool) : List QuadTree → List Elem
  | [] => []
  | t :: rest =>
    (t.oversized.filter (fun o => !(o == e) && f e o) ++
      t.contents.filter (fun o => !(o == e) && f e o)) ++
      collidingAux e f
        (rest ++ childrenToward t (collidingFits e t.x t.y t.width t.height))
termination_by q => queueWeight q
decreasing_by
  have h1 := childrenToward_weight_le t (collidingFits e t.x t.y t.width t.height)
  have h2 := liveChildren_weight_lt t
  simp [queueWeight] at *
  omega

/-- Public colliding with its leading validation. -/
def QuadTree.colliding (t : QuadTree) (item : Elem) (f : Elem → Elem → Bool) :
    Except String (List Elem) :=
  match validateElement item with
  | Except.error m => Except.error m
  | Except.ok _ => Except.ok (collidingAux item f [t])

/-- filter (index.ts lines 511-562): structurally independent deep clone kept
only where something survives.  Each live child slot is cloned first (a clone
that comes back null contributes size 0 and stays null); the local oversized
and contents elements satisfying the predicate are retained; the clone size
is the sum of the cloned children sizes and the retained local counts; a
clone whose size is 0 is dropped (returned as null). -/
def filterO (p : Elem → Bool) : Option QuadTree → Option QuadTree
  | none => none
  | some (.node qx qy qw qh qm cs os _ c1 c2 c3 c4) =>
    let k1 := filterO p c1
    let k2 := filterO p c2
    let k3 := filterO p c3
    let k4 := filterO p c4
    let osf := os.filter p
    let csf := cs.filter p
    let sz : Int := sizeField k1 + sizeField k2 + sizeField k3 + sizeField k4 +
      (osf.length : Int) + (csf.length : Int)
    if sz = 0 then none
    else some (.node qx qy qw qh qm csf osf sz k1 k2 k3 k4)

/-- Public filter on a tree. -/
def QuadTree.filter (t : QuadTree) (p : Elem → Bool) : Option QuadTree :=
  filterO p (some t)

/-- reject (index.ts lines 565-570): filter with the negated predicate. -/
def QuadTree.reject (t : QuadTree) (p : Elem → Bool) : Option QuadTree :=
  filterO (fun i => !(p i)) (some t)

/-- Geometry and placement conditions a live child at direction d of a node
with the given fields satisfies: its origin, dimensions and maxElements are
the ones the create closure would produce, and every element stored anywhere
in it is classified to d by calculateDirection at the parent. -/
def geomPlc (qx qy qw qh qm : Int) (d : Dir) (ct : QuadTree) : Prop :=
  ct.x = (childRect qx qy qw qh d).x ∧
  ct.y = (childRect qx qy qw qh d).y ∧
  ct.width = (childRect qx qy qw qh d).width ∧
  ct.height = (childRect qx qy qw qh d).height ∧
  ct.maxElements = qm ∧
  (∀ e, e ∈ dfsElems ct → calculateDirection e qx qy qw qh = d)

/-- Well-formedness invariant of every reachable tree: positive dimensions
and maxElements, the contents bound, the size accounting equation, contents
elements being single-fit, and for every live child its geometry, placement
and (recursively) well-formedness. -/
def WF : QuadTree → Prop
  | .node qx qy qw qh qm cs os sz c1 c2 c3 c4 =>
    1 ≤ qw ∧ 1 ≤ qh ∧ 1 ≤ qm ∧
    (cs.length : Int) ≤ qm ∧
    sz = (cs.length : Int) + (os.length : Int) + sizeField c1 + sizeField c2 +
      sizeField c3 + sizeField c4 ∧
    (∀ e ∈ cs, (fitting e qx qy qw qh).length = 1) ∧
    (match c1 with | none => True | some ct => geomPlc qx qy qw qh qm Dir.NW ct ∧ WF ct) ∧
    (match c2 with | none => True | some ct => geomPlc qx qy qw qh qm Dir.NE ct ∧ WF ct) ∧
    (match c3 with | none => True | some ct => geomPlc qx qy qw qh qm Dir.SW ct ∧ WF ct) ∧
    (match c4 with | none => True | some ct => geomPlc qx qy qw qh qm Dir.SE ct ∧ WF ct)

/-- Tree states reachable by the public mutating interface: construction,
validated pushAll (push is the singleton case), validated remove, and clear. -/
inductive Reachable : QuadTree → Prop where
  | construct (o : QuadTreeOptions) (t : QuadTree)
      (h : QuadTree.make o = Except.ok t) : Reachable t
  | pushStep (t : QuadTree) (items : List Elem) (ht : Reachable t)
      (hv : validateAll items = Except.ok ()) :
      Reachable (pushListFuel (qtMeasure t) t items)
  | removeStep (t : QuadTree) (e : Elem) (ht : Reachable t)
      (hv : validateElement e = Except.ok ()) : Reachable (removeOk t e).2
  | clearStep (t : QuadTree) (ht : Reachable t) : Reachable t.clear

/-! Arithmetic facts about halving. -/

theorem fdiv2_bounds (w : Int) (hw : 0 ≤ w) :
    2 * Int.fdiv w 2 ≤ w ∧ w ≤ 2 * Int.fdiv w 2 + 1 := by
  cases w with
  | ofNat n =>
    cases n with
    | zero => decide
    | succ m =>
      have h : Int.fdiv (Int.ofNat (m + 1)) 2 = Int.ofNat ((m + 1) / 2) := rfl
      rw [h, Int.ofNat_eq_natCast, Int.ofNat_eq_natCast]
      omega
  | negSucc n => exact absurd hw (Int.negSucc_lt_zero n).not_le

/-- For a node dimension of at least 2 the left and right split widths are the
genuine floor and ceiling halves: both at least 1, both strictly smaller than
the dimension, and summing to it. -/
theorem split_arith (w : Int) (h2 : 2 ≤ w) :
    leftSplit w = Int.fdiv w 2 ∧ 1 ≤ leftSplit w ∧
    leftSplit w + rightSplit w = w ∧ leftSplit w < w ∧ rightSplit w < w := by
  have hb := fdiv2_bounds w (by omega)
  have hb1 := fdiv2_bounds (w + 1) (by omega)
  have h1 : 1 ≤ Int.fdiv w 2 := by omega
  have hL : leftSplit w = Int.fdiv w 2 := max_eq_left h1
  unfold rightSplit
  rw [hL]
  omega

/-- For any dimension of at least 1 both split widths are at least 1. -/
theorem split_pos (w : Int) (h1 : 1 ≤ w) :
    1 ≤ leftSplit w ∧ 1 ≤ rightSplit w := by
  have hb1 := fdiv2_bounds (w + 1) (by omega)
  unfold leftSplit rightSplit
  constructor
  · exact le_max_right _ _
  · omega

/-! Claim theorems (interleaved with the helper lemmas they need). -/

/-- C1: the default collision predicate boundingBoxCollision is the half-open
bounding-box test on both axes, with width and height defaulting to 1 when
absent: it is true exactly when the half-open extents strictly overlap on both
axes, and false whenever the two rectangles merely touch at an edge. -/
theorem boundingBoxCollision_halfOpen (a b : Elem) (ax ay bx bY : Int)
    (hax : a.x = some ax) (hay : a.y = some ay)
    (hbx : b.x = some bx) (hby : b.y = some bY) :
    (boundingBoxCollision a b = true ↔
      (bx < ax + a.ew ∧ ax < bx + b.ew ∧ bY < ay + a.eh ∧ ay < bY + b.eh)) ∧
    ((ax + a.ew = bx ∨ bx + b.ew = ax ∨ ay + a.eh = bY ∨ bY + b.eh = ay) →
      boundingBoxCollision a b = false) := by
  constructor
  · simp [boundingBoxCollision, bboxCollide, Elem.ex, Elem.ey, hax, hay, hbx, hby]
    omega
  · intro h
    simp [boundingBoxCollision, bboxCollide, Elem.ex, Elem.ey, hax, hay, hbx, hby]
    omega

/-- Witness for C1, on the rectangles of the spec example: a at (10,10) sized
100 x 100 does not collide with b at (110,10) sized 100 x 100 (they only
touch), and does collide with the variant at (109,10). -/
theorem boundingBoxCollision_halfOpen_witness :
    ((⟨1, some 10, some 10, some 100, some 100⟩ : Elem).x = some 10) ∧
    (boundingBoxCollision ⟨1, some 10, some 10, some 100, some 100⟩
      ⟨2, some 110, some 10, some 100, some 100⟩ = false) ∧
    (boundingBoxCollision ⟨1, some 10, some 10, some 100, some 100⟩
      ⟨3, some 109, some 10, some 100, some 100⟩ = true) :=
  ⟨rfl,
    (boundingBoxCollision_halfOpen
        ⟨1, some 10, some 10, some 100, some 100⟩
        ⟨2, some 110, some 10, some 100, some 100⟩
        10 10 110 10 rfl rfl rfl rfl).2 (by decide),
    (boundingBoxCollision_halfOpen
        ⟨1, some 10, some 10, some 100, some 100⟩
        ⟨3, some 109, some 10, some 100, some 100⟩
        10 10 109 10 rfl rfl rfl rfl).1.mpr (by decide)⟩

/-- Containment of an integer point in the half-open extent of a rectangle. -/
def Rect.containsB (r : Rect) (px py : Int) : Bool :=
  decide (r.x ≤ px) && decide (px < r.x + r.width) &&
    decide (r.y ≤ py) && decide (py < r.y + r.height)

/-- Counterexample to C3 as stated: for the 1 x 1 node at the origin the SE
quadrant produced by splitTree contains the point (1,1), which lies outside
the parent rectangle, so for width = height = 1 the four sub-rectangles do
not exactly partition the parent (their union spills beyond it). -/
theorem splitTree_partition_cex :
    (splitTree 0 0 1 1).se.containsB 1 1 = true ∧
    Rect.containsB ⟨0, 0, 1, 1⟩ 1 1 = false := by decide

/-- C3 amended: splitTree always produces the documented child dimensions —
left width max(floor(w/2),1), right width ceil(w/2), symmetrically for height,
every dimension at least 1 — and for parents with width and height at least 2
(the only nodes the engine ever splits; a node of extent 1 sends elements to
oversized instead) the four quadrants exactly partition the parent rectangle:
they cover every parent point, lie inside the parent, and are pairwise
disjoint. -/
theorem splitTree_partition_amended (qx qy qw qh : Int) (hw : 1 ≤ qw) (hh : 1 ≤ qh) :
    ((splitTree qx qy qw qh).nw.width = leftSplit qw ∧
      (splitTree qx qy qw qh).ne.width = rightSplit qw ∧
      (splitTree qx qy qw qh).nw.height = leftSplit qh ∧
      (splitTree qx qy qw qh).sw.height = rightSplit qh ∧
      1 ≤ leftSplit qw ∧ 1 ≤ rightSplit qw ∧ 1 ≤ leftSplit qh ∧ 1 ≤ rightSplit qh) ∧
    (2 ≤ qw → 2 ≤ qh → ∀ px py : Int,
      (Rect.containsB ⟨qx, qy, qw, qh⟩ px py = true ↔
        ((splitTree qx qy qw qh).nw.containsB px py = true ∨
          (splitTree qx qy qw qh).ne.containsB px py = true ∨
          (splitTree qx qy qw qh).sw.containsB px py = true ∨
          (splitTree qx qy qw qh).se.containsB px py = true)) ∧
      (¬((splitTree qx qy qw qh).nw.containsB px py = true ∧
          (splitTree qx qy qw qh).ne.containsB px py = true)) ∧
      (¬((splitTree qx qy qw qh).nw.containsB px py = true ∧
          (splitTree qx qy qw qh).sw.containsB px py = true)) ∧
      (¬((splitTree qx qy qw qh).nw.containsB px py = true ∧
          (splitTree qx qy qw qh).se.containsB px py = true)) ∧
      (¬((splitTree qx qy qw qh).ne.containsB px py = true ∧
          (splitTree qx qy qw qh).sw.containsB px py = true)) ∧
      (¬((splitTree qx qy qw qh).ne.containsB px py = true ∧
          (splitTree qx qy qw qh).se.containsB px py = true)) ∧
      (¬((splitTree qx qy qw qh).sw.containsB px py = true ∧
          (splitTree qx qy qw qh).se.containsB px py = true))) := by
  constructor
  · have h1 := split_pos qw hw
    have h2 := split_pos qh hh
    exact ⟨rfl, rfl, rfl, rfl, h1.1, h1.2, h2.1, h2.2⟩
  · intro hw2 hh2 px py
    have haw := split_arith qw hw2
    have hah := split_arith qh hh2
    simp only [splitTree, Rect.containsB, decide_eq_true_eq, Bool.and_eq_true]
    constructor
    · constructor
      · intro h
        omega
      · intro h
        omega
    · refine ⟨?_, ?_, ?_, ?_, ?_, ?_⟩ <;> intro h <;> omega

/-- Witness for C3 amended at the 4 x 4 node at the origin, checking the
partition property at the interior point (2,1): it lies in the parent and in
exactly the NE quadrant. -/
theorem splitTree_partition_amended_witness :
    (1 : Int) ≤ 4 ∧
    ((splitTree 0 0 4 4).nw.width = leftSplit 4 ∧
      Rect.containsB ⟨0, 0, 4, 4⟩ 2 1 = true ∧
      (splitTree 0 0 4 4).ne.containsB 2 1 = true) :=
  ⟨by decide,
    (splitTree_partition_amended 0 0 4 4 (by decide) (by decide)).1.1,
    by decide,
    by decide⟩

/-- Counterexample to C9 as stated: constructing with a supplied maxElements
of 0 does not raise — the JS `maxElements || 1` treats 0 as absent, so the
tree is built with maxElements 1. -/
theorem make_maxElements_zero_cex :
    QuadTree.make ⟨some 4, some 4, none, none, some 0⟩ =
      Except.ok (.node 0 0 4 4 1 [] [] 0 none none none none) := rfl

/-- C9 amended: with valid dimensions, construction raises the
InvalidMaxElements error exactly for a supplied maxElements that is negative
(less than 1 and non-zero); a supplied 0 is falsy and silently defaults to 1,
and an omitted maxElements defaults to 1; in the three non-raising cases
construction succeeds with the corresponding effective maxElements. -/
theorem make_maxElements_amended (o : QuadTreeOptions) (w h : Int)
    (hw : o.width = some w) (hh : o.height = some h)
    (h1 : 1 ≤ w) (h2 : 1 ≤ h) :
    (∀ v, o.maxElements = some v → v < 1 → v ≠ 0 →
      QuadTree.make o = Except.error
        "The maximum number of elements before a split must be a positive integer.") ∧
    (o.maxElements = none →
      QuadTree.make o =
        Except.ok (.node (jsOr o.x 0) (jsOr o.y 0) w h 1 [] [] 0 none none none none)) ∧
    (o.maxElements = some 0 →
      QuadTree.make o =
        Except.ok (.node (jsOr o.x 0) (jsOr o.y 0) w h 1 [] [] 0 none none none none)) ∧
    (∀ v, o.maxElements = some v → 1 ≤ v →
      QuadTree.make o =
        Except.ok (.node (jsOr o.x 0) (jsOr o.y 0) w h v [] [] 0 none none none none)) := by
  have hdim : ¬(w < 1 ∨ h < 1) := by omega
  refine ⟨?_, ?_, ?_, ?_⟩
  · intro v hv hlt hne
    have hm : jsOr o.maxElements 1 = v := by rw [hv]; simp [jsOr, hne]
    simp only [QuadTree.make, hw, hh]
    rw [if_neg hdim, hm, if_pos hlt]
  · intro hv
    have hm : jsOr o.maxElements 1 = 1 := by rw [hv]; rfl
    simp only [QuadTree.make, hw, hh]
    rw [if_neg hdim, hm, if_neg (by omega)]
  · intro hv
    have hm : jsOr o.maxElements 1 = 1 := by rw [hv]; simp [jsOr]
    simp only [QuadTree.make, hw, hh]
    rw [if_neg hdim, hm, if_neg (by omega)]
  · intro v hv hge
    have hne : v ≠ 0 := by omega
    have hm : jsOr o.maxElements 1 = v := by rw [hv]; simp [jsOr, hne]
    simp only [QuadTree.make, hw, hh]
    rw [if_neg hdim, hm, if_neg (by omega)]

/-- Witness for C9 amended: at width = height = 4, a supplied maxElements of
-1 raises and an omitted maxElements yields a tree with maxElements 1. -/
theorem make_maxElements_amended_witness :
    ((⟨some 4, some 4, none, none, some (-1)⟩ : QuadTreeOptions).width = some 4) ∧
    QuadTree.make ⟨some 4, some 4, none, none, some (-1)⟩ =
      Except.error
        "The maximum number of elements before a split must be a positive integer." ∧
    QuadTree.make ⟨some 4, some 4, none, none, none⟩ =
      Except.ok (.node 0 0 4 4 1 [] [] 0 none none none none) :=
  ⟨rfl,
    (make_maxElements_amended ⟨some 4, some 4, none, none, some (-1)⟩ 4 4
        rfl rfl (by decide) (by decide)).1 (-1) rfl (by decide) (by decide),
    (make_maxElements_amended ⟨some 4, some 4, none, none, none⟩ 4 4
        rfl rfl (by decide) (by decide)).2.1 rfl⟩

/-- C5: pushAll validates the whole batch before any mutation: when the batch
splits as valid items, a first invalid item and a remainder, the call returns
the error of that first invalid item and no tree is produced, so nothing is
inserted and the tree is unchanged (all-or-nothing). -/
theorem pushAll_firstInvalid_error (t : QuadTree) (pre post : List Elem)
    (e : Elem) (m : String)
    (hpre : ∀ x ∈ pre, validateElement x = Except.ok ())
    (he : validateElement e = Except.error m) :
    pushAll t (pre ++ e :: post) = Except.error m := by
  have hva : validateAll (pre ++ e :: post) = Except.error m := by
    induction pre with
    | nil => simp [validateAll, he]
    | cons a rest ih =>
      have ha : validateElement a = Except.ok () := hpre a (by simp)
      simp only [List.cons_append, validateAll, ha]
      exact ih (fun x hx => hpre x (by simp [hx]))
  simp [pushAll, hva]

/-- Witness for C5: a batch whose second item has a negative width fails with
the width/height error and pushAll returns no tree. -/
theorem pushAll_firstInvalid_error_witness :
    validateElement ⟨1, some 0, some 0, none, none⟩ = Except.ok () ∧
    validateElement ⟨2, some 1, some 1, some (-3), none⟩ =
      Except.error "Width and height must be positive integers." ∧
    pushAll (.node 0 0 4 4 1 [] [] 0 none none none none)
        ([⟨1, some 0, some 0, none, none⟩] ++
          ⟨2, some 1, some 1, some (-3), none⟩ :: [⟨3, some 2, some 2, none, none⟩]) =
      Except.error "Width and height must be positive integers." :=
  ⟨rfl, rfl,
    pushAll_firstInvalid_error (.node 0 0 4 4 1 [] [] 0 none none none none)
      [⟨1, some 0, some 0, none, none⟩] [⟨3, some 2, some 2, none, none⟩]
      ⟨2, some 1, some 1, some (-3), none⟩
      "Width and height must be positive integers."
      (by intro x hx; simp at hx; subst hx; rfl) rfl⟩

/-- C6: when fitting yields no quadrant at a visited node, colliding and
onCollision select children by the right/bottom fallback: NE and SE when only
the right-edge trigger fires, SW and SE when only the bottom-edge trigger
fires, SE alone when both fire, and nothing — no child is visited — when the
item lies beyond the left or top edge instead. -/
theorem collidingFits_fallback (e : Elem) (qx qy qw qh : Int)
    (hfit : fitting e qx qy qw qh = []) :
    collidingFits e qx qy qw qh =
      (if e.ex ≥ qx + qw then
        (if e.ey ≥ qy + qh then [Dir.SE] else [Dir.NE, Dir.SE])
      else (if e.ey ≥ qy + qh then [Dir.SW, Dir.SE] else [])) ∧
    (∀ t : QuadTree, childrenToward t [] = []) := by
  constructor
  · unfold collidingFits
    rw [hfit]
    by_cases hx : e.ex ≥ qx + qw <;> by_cases hy : e.ey ≥ qy + qh <;>
      simp [hx, hy]
  · intro t
    simp [childrenToward]

/-- Witness for C6 at the 4 x 4 node at the origin: the point item at (10,10)
fits no quadrant and both fallback triggers fire, collapsing the selection to
SE only. -/
theorem collidingFits_fallback_witness :
    fitting ⟨7, some 10, some 10, none, none⟩ 0 0 4 4 = [] ∧
    collidingFits ⟨7, some 10, some 10, none, none⟩ 0 0 4 4 =
      (if (⟨7, some 10, some 10, none, none⟩ : Elem).ex ≥ 0 + 4 then
        (if (⟨7, some 10, some 10, none, none⟩ : Elem).ey ≥ 0 + 4 then [Dir.SE]
          else [Dir.NE, Dir.SE])
      else (if (⟨7, some 10, some 10, none, none⟩ : Elem).ey ≥ 0 + 4 then
        [Dir.SW, Dir.SE] else [])) :=
  ⟨by decide,
    (collidingFits_fallback ⟨7, some 10, some 10, none, none⟩ 0 0 4 4 (by decide)).1⟩

/-! Unfolding helpers for the nested child matches. -/

/-- A child slot as a zero-or-one element list of trees. -/
def optList : Option QuadTree → List QuadTree
  | none => []
  | some c => [c]

theorem dfsElems_node (qx qy qw qh qm : Int) (cs os : List Elem) (sz : Int)
    (c1 c2 c3 c4 : Option QuadTree) :
    dfsElems (.node qx qy qw qh qm cs os sz c1 c2 c3 c4) =
      os ++ cs ++ (dfsElemsOpt c1 ++ dfsElemsOpt c2 ++ dfsElemsOpt c3 ++ dfsElemsOpt c4) := by
  cases c1 <;> cases c2 <;> cases c3 <;> cases c4 <;> rfl

theorem liveChildren_node (qx qy qw qh qm : Int) (cs os : List Elem) (sz : Int)
    (c1 c2 c3 c4 : Option QuadTree) :
    liveChildren (.node qx qy qw qh qm cs os sz c1 c2 c3 c4) =
      optList c1 ++ optList c2 ++ optList c3 ++ optList c4 := by
  cases c1 <;> cases c2 <;> cases c3 <;> cases c4 <;> rfl

/-- Nodes of an optional subtree. -/
def allNodesOpt : Option QuadTree → List QuadTree
  | none => []
  | some c => allNodes c

theorem allNodes_node (qx qy qw qh qm : Int) (cs os : List Elem) (sz : Int)
    (c1 c2 c3 c4 : Option QuadTree) :
    allNodes (.node qx qy qw qh qm cs os sz c1 c2 c3 c4) =
      (.node qx qy qw qh qm cs os sz c1 c2 c3 c4) ::
        (allNodesOpt c1 ++ allNodesOpt c2 ++ allNodesOpt c3 ++ allNodesOpt c4) := by
  cases c1 <;> cases c2 <;> cases c3 <;> cases c4 <;> rfl

theorem dfsElemsOpt_none : dfsElemsOpt none = [] := rfl

theorem dfsElemsOpt_some (t : QuadTree) : dfsElemsOpt (some t) = dfsElems t := rfl

theorem sizeField_none : sizeField none = 0 := rfl

theorem sizeField_some (t : QuadTree) : sizeField (some t) = t.size := rfl

theorem optCount (x : Elem) (c : Option QuadTree) :
    (dfsElemsOpt c).count x =
      ((optList c).map (fun tt => (dfsElems tt).count x)).sum := by
  cases c <;> simp [dfsElemsOpt, optList]

theorem optLen (c : Option QuadTree) :
    (dfsElemsOpt c).length = ((optList c).map (fun tt => (dfsElems tt).length)).sum := by
  cases c <;> simp [dfsElemsOpt, optList]

/-! Specification of the clone/filter engine. -/

theorem filterO_spec (p : Elem → Bool) : ∀ c : Option QuadTree,
    (dfsElemsOpt (filterO p c)).length = ((dfsElemsOpt c).filter p).length ∧
    sizeField (filterO p c) = (((dfsElemsOpt c).filter p).length : Int) ∧
    (filterO p c = none ↔ ((dfsElemsOpt c).filter p).length = 0)
  | none => by simp [filterO, dfsElemsOpt, sizeField]
  | some (.node qx qy qw qh qm cs os sz c1 c2 c3 c4) => by
    obtain ⟨h1l, h1s, h1n⟩ := filterO_spec p c1
    obtain ⟨h2l, h2s, h2n⟩ := filterO_spec p c2
    obtain ⟨h3l, h3s, h3n⟩ := filterO_spec p c3
    obtain ⟨h4l, h4s, h4n⟩ := filterO_spec p c4
    rw [dfsElemsOpt_some, dfsElems_node]
    simp only [filterO]
    split
    · rename_i h0
      rw [h1s, h2s, h3s, h4s] at h0
      simp only [dfsElemsOpt_none, sizeField_none, List.filter_append,
        List.length_append, List.length_nil]
      refine ⟨by omega, by omega, ?_⟩
      simp only [true_iff]
      omega
    · rename_i h0
      rw [h1s, h2s, h3s, h4s] at h0
      simp only [dfsElemsOpt_some, sizeField_some, dfsElems_node, QuadTree.size,
        List.filter_append, List.length_append]
      refine ⟨?_, ?_, ?_⟩
      · omega
      · push_cast
        omega
      · simp only [reduceCtorEq, false_iff]
        omega

/-! The breadth-first enumerations agree with the recursive one up to order. -/

theorem dfs_count_node (x : Elem) (t : QuadTree) :
    (dfsElems t).count x =
      (t.oversized.count x + t.contents.count x) +
        ((liveChildren t).map (fun tt => (dfsElems tt).count x)).sum := by
  cases t with
  | node qx qy qw qh qm cs os sz c1 c2 c3 c4 =>
    rw [dfsElems_node, liveChildren_node]
    simp only [QuadTree.oversized, QuadTree.contents, List.count_append,
      List.map_append, List.sum_append, optCount]

theorem dfs_len_node (t : QuadTree) :
    (dfsElems t).length =
      (t.oversized.length + t.contents.length) +
        ((liveChildren t).map (fun tt => (dfsElems tt).length)).sum := by
  cases t with
  | node qx qy qw qh qm cs os sz c1 c2 c3 c4 =>
    rw [dfsElems_node, liveChildren_node]
    simp only [QuadTree.oversized, QuadTree.contents, List.length_append,
      List.map_append, List.sum_append, optLen]

theorem eachList_count : ∀ (q : List QuadTree) (x : Elem),
    (eachList q).count x = (q.map (fun t => (dfsElems t).count x)).sum
  | [], _ => by simp [eachList]
  | t :: rest, x => by
    have ih := eachList_count (rest ++ liveChildren t) x
    rw [eachList]
    simp only [List.count_append, List.map_append, List.sum_append, List.map_cons,
      List.sum_cons] at *
    rw [ih, dfs_count_node]
    omega
termination_by q _ => queueWeight q
decreasing_by
  have h := liveChildren_weight_lt t
  simp [queueWeight] at *
  omega

theorem eachList_length : ∀ q : List QuadTree,
    (eachList q).length = (q.map (fun t => (dfsElems t).length)).sum
  | [] => by simp [eachList]
  | t :: rest => by
    have ih := eachList_length (rest ++ liveChildren t)
    rw [eachList]
    simp only [List.length_append, List.map_append, List.sum_append, List.map_cons,
      List.sum_cons] at *
    rw [ih, dfs_len_node]
    omega
termination_by q => queueWeight q
decreasing_by
  have h := liveChildren_weight_lt t
  simp [queueWeight] at *
  omega

theorem findAux_eq (p : Elem → Bool) : ∀ q : List QuadTree,
    findAux p q = (eachList q).filter p
  | [] => by simp [findAux, eachList]
  | t :: rest => by
    have ih := findAux_eq p (rest ++ liveChildren t)
    rw [findAux, eachList]
    simp [List.filter_append, ih]
termination_by q => queueWeight q
decreasing_by
  have h := liveChildren_weight_lt t
  simp [queueWeight] at *
  omega

/-- The element sequence forEach/each iterates over a tree. -/
def eachElems (t : QuadTree) : List Elem := eachList [t]

theorem eachElems_count (t : QuadTree) (x : Elem) :
    (eachElems t).count x = (dfsElems t).count x := by
  simp [eachElems, eachList_count]

theorem eachElems_length (t : QuadTree) :
    (eachElems t).length = (dfsElems t).length := by
  simp [eachElems, eachList_length]

/-- Searching by object identity returns one copy of the element per
occurrence, in particular the singleton list when it occurs once and the
empty list when it is absent. -/
theorem find_eq_replicate (t : QuadTree) (x : Elem) :
    t.find (fun i => i == x) = List.replicate ((dfsElems t).count x) x := by
  rw [QuadTree.find, findAux_eq]
  have h := List.filter_beq (eachList [t]) x
  rw [h]
  have hc : (eachList [t]).count x = (dfsElems t).count x := by
    simp [eachList_count]
  rw [hc]

/-- C7: filter yields a structurally independent clone whose total element
count — as enumerated by each/forEach, with the dropped-clone case counting
zero — equals the number of elements of the original tree satisfying the
predicate.  The embedding is functional, so the original tree value is
untouched by construction (the source clones every node and never writes to
the target, per the cited lines). -/
theorem filter_count_eq (t : QuadTree) (p : Elem → Bool) :
    (match t.filter p with
      | none => 0
      | some c => (eachElems c).length) = ((eachElems t).filter p).length := by
  have h := filterO_spec p (some t)
  have hopt : dfsElemsOpt (some t) = dfsElems t := rfl
  rw [hopt] at h
  cases hf : t.filter p with
  | none =>
    rw [QuadTree.filter] at hf
    rw [hf] at h
    have h0 := h.2.2.mp rfl
    have hlen : ((eachElems t).filter p).length = ((dfsElems t).filter p).length := by
      have hp := List.Perm.filter p ((List.perm_iff_count).mpr (eachElems_count t))
      exact hp.length_eq
    simp only []
    omega
  | some c =>
    rw [QuadTree.filter] at hf
    rw [hf] at h
    have hlen : (eachElems c).length = (dfsElems c).length := eachElems_length c
    have hlen2 : ((eachElems t).filter p).length = ((dfsElems t).filter p).length := by
      have hp := List.Perm.filter p ((List.perm_iff_count).mpr (eachElems_count t))
      exact hp.length_eq
    have hd : dfsElemsOpt (some c) = dfsElems c := rfl
    rw [hd] at h
    simp only []
    omega

/-- C10: when no element of the tree satisfies the predicate — in particular
on an empty tree — filter returns null rather than an empty clone, because a
cloned node whose resulting size is 0 is dropped; reject likewise returns
null when every element satisfies the predicate. -/
theorem filter_none_of_empty (t : QuadTree) (p : Elem → Bool) :
    ((∀ e ∈ dfsElems t, p e = false) → t.filter p = none) ∧
    ((∀ e ∈ dfsElems t, p e = true) → t.reject p = none) := by
  constructor
  · intro hall
    have h := (filterO_spec p (some t)).2.2
    have hopt : dfsElemsOpt (some t) = dfsElems t := rfl
    rw [hopt] at h
    rw [QuadTree.filter]
    refine h.mpr ?_
    have : (dfsElems t).filter p = [] := by
      apply List.filter_eq_nil_iff.mpr
      intro a ha
      simp [hall a ha]
    rw [this]
    rfl
  · intro hall
    have h := (filterO_spec (fun i => !(p i)) (some t)).2.2
    have hopt : dfsElemsOpt (some t) = dfsElems t := rfl
    rw [hopt] at h
    rw [QuadTree.reject]
    refine h.mpr ?_
    have : (dfsElems t).filter (fun i => !(p i)) = [] := by
      apply List.filter_eq_nil_iff.mpr
      intro a ha
      simp [hall a ha]
    rw [this]
    rfl

/-- Witness for C10 on a one-element tree: the predicate matching nothing
makes filter return null, and the always-true predicate makes reject return
null. -/
theorem filter_none_of_empty_witness :
    (∀ e ∈ dfsElems (.node 0 0 4 4 1
        [⟨1, some 0, some 0, none, none⟩] [] 1 none none none none),
      (fun i => i.id == 99) e = false) ∧
    (QuadTree.node 0 0 4 4 1
        [⟨1, some 0, some 0, none, none⟩] [] 1 none none none none).filter
      (fun i => i.id == 99) = none ∧
    (QuadTree.node 0 0 4 4 1
        [⟨1, some 0, some 0, none, none⟩] [] 1 none none none none).reject
      (fun i => i.id == 1) = none :=
  ⟨by decide,
    (filter_none_of_empty
        (.node 0 0 4 4 1 [⟨1, some 0, some 0, none, none⟩] [] 1 none none none none)
        (fun i => i.id == 99)).1 (by decide),
    (filter_none_of_empty
        (.node 0 0 4 4 1 [⟨1, some 0, some 0, none, none⟩] [] 1 none none none none)
        (fun i => i.id == 1)).2 (by decide)⟩

/-! Geometry: single-fit routing agrees with center classification. -/

theorem collideRect_iff (e : Elem) (r : Rect) :
    collideRect e r = true ↔
      (e.ex < r.x + r.width ∧ r.x < e.ex + e.ew ∧
        e.ey < r.y + r.height ∧ r.y < e.ey + e.eh) := by
  simp only [collideRect, bboxCollide, Bool.not_eq_eq_eq_not, Bool.not_true,
    Bool.or_eq_false_iff, decide_eq_false_iff_not, not_le, not_lt]
  omega

/-- On a node both of whose dimensions are at least 2, an element that fits
exactly one quadrant is classified to that same quadrant by
calculateDirection: the center coincides with the north-west quadrant corner,
so the removal descent follows the insertion routing. -/
theorem fit_single_calcDir (e : Elem) (qx qy qw qh : Int)
    (hw : 2 ≤ qw) (hh : 2 ≤ qh) (d : Dir)
    (hfit : fitting e qx qy qw qh = [d]) :
    calculateDirection e qx qy qw qh = d := by
  obtain ⟨hLw, hLw1, hSw, _, _⟩ := split_arith qw hw
  obtain ⟨hLh, hLh1, hSh, _, _⟩ := split_arith qh hh
  by_cases h1 : collideRect e (splitTree qx qy qw qh).nw = true <;>
    by_cases h2 : collideRect e (splitTree qx qy qw qh).ne = true <;>
    by_cases h3 : collideRect e (splitTree qx qy qw qh).sw = true <;>
    by_cases h4 : collideRect e (splitTree qx qy qw qh).se = true <;>
    simp only [fitting, h1, h2, h3, h4, if_true, if_false, Bool.not_eq_true,
      List.append_nil, List.nil_append, List.append_assoc, List.cons_append,
      if_neg, if_pos] at hfit <;>
    simp only [List.cons.injEq, List.append_eq_nil, and_false, false_and,
      List.cons_ne_nil, reduceCtorEq, and_true] at hfit
  all_goals
    (rw [collideRect_iff] at h1 h2 h3 h4
     simp only [splitTree] at h1 h2 h3 h4
     subst hfit
     simp only [calculateDirection]
     rw [show Int.fdiv qw 2 = leftSplit qw from hLw.symm,
       show Int.fdiv qh 2 = leftSplit qh from hLh.symm]
     split <;> split <;> first | rfl | (exfalso; omega))

/-- The quadrant geometry of every child: both dimensions at least 1, and for
a parent of dimensions at least 2 both strictly smaller than the parent
dimension. -/
theorem childRect_dims (qx qy qw qh : Int) (hw : 1 ≤ qw) (hh : 1 ≤ qh) (d : Dir) :
    1 ≤ (childRect qx qy qw qh d).width ∧ 1 ≤ (childRect qx qy qw qh d).height ∧
    (2 ≤ qw → 2 ≤ qh →
      (childRect qx qy qw qh d).width ≤ qw - 1 ∧
      (childRect qx qy qw qh d).height ≤ qh - 1) := by
  obtain ⟨hw1, hw2⟩ := split_pos qw hw
  obtain ⟨hh1, hh2⟩ := split_pos qh hh
  have hcond : 2 ≤ qw → 2 ≤ qh →
      leftSplit qw ≤ qw - 1 ∧ rightSplit qw ≤ qw - 1 ∧
      leftSplit qh ≤ qh - 1 ∧ rightSplit qh ≤ qh - 1 := by
    intro h2w h2h
    obtain ⟨e1, -, e2, e3, e4⟩ := split_arith qw h2w
    obtain ⟨f1, -, f2, f3, f4⟩ := split_arith qh h2h
    omega
  cases d <;> simp only [childRect] <;>
    exact ⟨by assumption, by assumption, fun h2w h2h => by
      obtain ⟨g1, g2, g3, g4⟩ := hcond h2w h2h
      exact ⟨by assumption, by assumption⟩⟩

/-! Well-formedness helpers. -/

/-- The conditions WF imposes on one child slot. -/
def childOKP (qx qy qw qh qm : Int) (d : Dir) : Option QuadTree → Prop
  | none => True
  | some ct => geomPlc qx qy qw qh qm d ct ∧ WF ct

theorem WF_node (qx qy qw qh qm : Int) (cs os : List Elem) (sz : Int)
    (c1 c2 c3 c4 : Option QuadTree) :
    WF (.node qx qy qw qh qm cs os sz c1 c2 c3 c4) ↔
      (1 ≤ qw ∧ 1 ≤ qh ∧ 1 ≤ qm ∧
        (cs.length : Int) ≤ qm ∧
        sz = (cs.length : Int) + (os.length : Int) + sizeField c1 + sizeField c2 +
          sizeField c3 + sizeField c4 ∧
        (∀ e ∈ cs, (fitting e qx qy qw qh).length = 1) ∧
        childOKP qx qy qw qh qm Dir.NW c1 ∧ childOKP qx qy qw qh qm Dir.NE c2 ∧
        childOKP qx qy qw qh qm Dir.SW c3 ∧ childOKP qx qy qw qh qm Dir.SE c4) := by
  cases c1 <;> cases c2 <;> cases c3 <;> cases c4 <;> exact Iff.rfl

theorem WF_leaf (qx qy qw qh qm : Int) (hw : 1 ≤ qw) (hh : 1 ≤ qh) (hm : 1 ≤ qm) :
    WF (.node qx qy qw qh qm [] [] 0 none none none none) := by
  rw [WF_node]
  refine ⟨hw, hh, hm, by simp only [List.length_nil, Nat.cast_zero]; omega,
    by simp [sizeField], by simp, trivial, trivial, trivial, trivial⟩

theorem WF_childCreate (qx qy qw qh qm : Int) (hw : 1 ≤ qw) (hh : 1 ≤ qh)
    (hm : 1 ≤ qm) (d : Dir) :
    WF (childCreate qx qy qw qh qm d) := by
  obtain ⟨h1, h2, _⟩ := childRect_dims qx qy qw qh hw hh d
  exact WF_leaf _ _ _ _ _ h1 h2 hm

/-- The size field of a well-formed tree counts exactly its stored elements. -/
theorem WF_size_len : ∀ t : QuadTree, WF t → t.size = ((dfsElems t).length : Int)
  | .node qx qy qw qh qm cs os sz c1 c2 c3 c4 => by
    intro h
    rw [WF_node] at h
    obtain ⟨-, -, -, -, hacc, -, hc1, hc2, hc3, hc4⟩ := h
    have f1 : sizeField c1 = ((dfsElemsOpt c1).length : Int) := by
      cases c1 with
      | none => simp [sizeField, dfsElemsOpt]
      | some ct => exact WF_size_len ct hc1.2
    have f2 : sizeField c2 = ((dfsElemsOpt c2).length : Int) := by
      cases c2 with
      | none => simp [sizeField, dfsElemsOpt]
      | some ct => exact WF_size_len ct hc2.2
    have f3 : sizeField c3 = ((dfsElemsOpt c3).length : Int) := by
      cases c3 with
      | none => simp [sizeField, dfsElemsOpt]
      | some ct => exact WF_size_len ct hc3.2
    have f4 : sizeField c4 = ((dfsElemsOpt c4).length : Int) := by
      cases c4 with
      | none => simp [sizeField, dfsElemsOpt]
      | some ct => exact WF_size_len ct hc4.2
    rw [QuadTree.size, dfsElems_node]
    rw [f1, f2, f3, f4] at hacc
    simp only [List.length_append]
    push_cast
    omega

theorem WF_size_nonneg (t : QuadTree) (h : WF t) : 0 ≤ t.size := by
  rw [WF_size_len t h]
  positivity

/-- Well-formedness of the whole tree gives well-formedness of every node. -/
theorem WF_allNodes : ∀ t : QuadTree, WF t → ∀ n ∈ allNodes t, WF n
  | .node qx qy qw qh qm cs os sz c1 c2 c3 c4 => by
    intro h n hn
    rw [allNodes_node] at hn
    have hw := h
    rw [WF_node] at hw
    obtain ⟨-, -, -, -, -, -, hc1, hc2, hc3, hc4⟩ := hw
    rcases List.mem_cons.mp hn with hn | hn
    · rw [hn]; exact h
    · simp only [List.mem_append] at hn
      rcases hn with ((hn | hn) | hn) | hn
      · cases c1 with
        | none => simp [allNodesOpt] at hn
        | some ct => exact WF_allNodes ct hc1.2 n hn
      · cases c2 with
        | none => simp [allNodesOpt] at hn
        | some ct => exact WF_allNodes ct hc2.2 n hn
      · cases c3 with
        | none => simp [allNodesOpt] at hn
        | some ct => exact WF_allNodes ct hc3.2 n hn
      · cases c4 with
        | none => simp [allNodesOpt] at hn
        | some ct => exact WF_allNodes ct hc4.2 n hn

/-! The worklist-state invariant of the insertion loop. -/

/-- Total number of elements sitting in the four fifo candidate batches. -/
def batchesLen (s : PushState) : Nat :=
  s.bNW.length + s.bNE.length + s.bSW.length + s.bSE.length

/-- Every element recorded in the worklist state. -/
def stateElems (s : PushState) : List Elem :=
  s.contents ++ s.oversized ++ (s.bNW ++ s.bNE ++ s.bSW ++ s.bSE)

theorem addBatch_basic (s : PushState) (d : Dir) (e : Elem) :
    (s.addBatch d e).contents = s.contents ∧
    (s.addBatch d e).oversized = s.oversized ∧
    (s.addBatch d e).size = s.size ∧
    batchesLen (s.addBatch d e) = batchesLen s + 1 := by
  cases d <;> simp [PushState.addBatch, batchesLen] <;> omega

theorem addBatch_batchAt (s : PushState) (d : Dir) (e : Elem) (d' : Dir) :
    (s.addBatch d e).batchAt d' =
      if d' = d then s.batchAt d' ++ [e] else s.batchAt d' := by
  cases d <;> cases d' <;> simp [PushState.addBatch, PushState.batchAt]

theorem addBatch_count (s : PushState) (d : Dir) (e x : Elem) :
    (stateElems (s.addBatch d e)).count x =
      (stateElems s).count x + List.count x [e] := by
  cases d <;> simp [PushState.addBatch, stateElems, List.count_append, List.count_cons] <;> omega

theorem flushList_basic (qx qy qw qh : Int) : ∀ (l : List Elem) (s : PushState),
    (flushList qx qy qw qh s l).contents = s.contents ∧
    (flushList qx qy qw qh s l).oversized = s.oversized ∧
    (flushList qx qy qw qh s l).size = s.size ∧
    batchesLen (flushList qx qy qw qh s l) = batchesLen s + l.length
  | [], s => by simp [flushList]
  | c :: rest, s => by
    have ih := flushList_basic qx qy qw qh rest
      (s.addBatch ((fitting c qx qy qw qh).headD Dir.NW) c)
    have hb := addBatch_basic s ((fitting c qx qy qw qh).headD Dir.NW) c
    simp only [flushList, List.foldl_cons] at ih ⊢
    refine ⟨?_, ?_, ?_, ?_⟩
    · rw [ih.1, hb.1]
    · rw [ih.2.1, hb.2.1]
    · rw [ih.2.2.1, hb.2.2.1]
    · rw [ih.2.2.2, hb.2.2.2]
      simp
      omega

theorem flushList_count (qx qy qw qh : Int) : ∀ (l : List Elem) (s : PushState) (x : Elem),
    (stateElems (flushList qx qy qw qh s l)).count x =
      (stateElems s).count x + l.count x
  | [], s, x => by simp [flushList]
  | c :: rest, s, x => by
    have ih := flushList_count qx qy qw qh rest
      (s.addBatch ((fitting c qx qy qw qh).headD Dir.NW) c) x
    have hb := addBatch_count s ((fitting c qx qy qw qh).headD Dir.NW) c x
    simp only [flushList, List.foldl_cons] at ih ⊢
    rw [ih, hb]
    simp [List.count_cons]
    omega

theorem flushList_batchAt_mem (qx qy qw qh : Int) :
    ∀ (l : List Elem) (s : PushState) (d : Dir) (e : Elem),
    e ∈ (flushList qx qy qw qh s l).batchAt d →
    e ∈ s.batchAt d ∨ (e ∈ l ∧ (fitting e qx qy qw qh).headD Dir.NW = d)
  | [], s, d, e => by
    intro h
    simp only [flushList, List.foldl_nil] at h
    exact Or.inl h
  | c :: rest, s, d, e => by
    intro h
    simp only [flushList, List.foldl_cons] at h
    have ih := flushList_batchAt_mem qx qy qw qh rest
      (s.addBatch ((fitting c qx qy qw qh).headD Dir.NW) c) d e h
    rcases ih with h' | h'
    · rw [addBatch_batchAt] at h'
      by_cases hd : d = (fitting c qx qy qw qh).headD Dir.NW
      · rw [if_pos hd] at h'
        rcases List.mem_append.mp h' with h'' | h''
        · exact Or.inl h''
        · have : e = c := by simpa using h''
          subst this
          exact Or.inr ⟨List.mem_cons_self _ _, hd.symm⟩
      · rw [if_neg hd] at h'
        exact Or.inl h'
    · exact Or.inr ⟨List.mem_cons_of_mem _ h'.1, h'.2⟩

/-- Invariant of the per-node insertion loop, relative to the node geometry,
its maxElements and the total size sc of its children before the loop ran:
size accounting, the contents bound, single-fit contents, correctly routed
batches, and batches only at splittable nodes. -/
def PushInv (qx qy qw qh qm sc : Int) (s : PushState) : Prop :=
  s.size = (s.contents.length : Int) + (s.oversized.length : Int) + sc +
    (batchesLen s : Int) ∧
  (s.contents.length : Int) ≤ qm ∧
  (∀ e ∈ s.contents, (fitting e qx qy qw qh).length = 1) ∧
  (∀ d : Dir, ∀ e ∈ s.batchAt d, fitting e qx qy qw qh = [d]) ∧
  (batchesLen s ≠ 0 → qw ≠ 1 ∧ qh ≠ 1)

theorem pushStep_spec (qx qy qw qh qm sc : Int) (hsc : 0 ≤ sc)
    (s : PushState) (e : Elem) (h : PushInv qx qy qw qh qm sc s) :
    PushInv qx qy qw qh qm sc (pushStep qx qy qw qh qm s e) ∧
    (pushStep qx qy qw qh qm s e).size = s.size + 1 ∧
    (∀ x, (stateElems (pushStep qx qy qw qh qm s e)).count x =
      (stateElems s).count x + List.count x [e]) := by
  obtain ⟨hacc, hbound, hfitCS, hfitB, hmin⟩ := h
  simp only [pushStep]
  split
  · rename_i hcond
    refine ⟨⟨?_, hbound, hfitCS, hfitB, hmin⟩, rfl, ?_⟩
    · simp only [batchesLen] at hacc ⊢
      simp only [List.length_append, List.length_cons, List.length_nil]
      push_cast at hacc ⊢
      omega
    · intro x
      simp only [stateElems, List.count_append, List.count_cons, List.count_nil]
      omega
  · split
    · rename_i hcond hcap
      have hlen : (fitting e qx qy qw qh).length = 1 := by
        push_neg at hcond
        exact hcond.1
      refine ⟨⟨?_, ?_, ?_, hfitB, hmin⟩, rfl, ?_⟩
      · simp only [batchesLen] at hacc ⊢
        simp only [List.length_append, List.length_cons, List.length_nil]
        push_cast at hacc ⊢
        omega
      · simp only [batchesLen] at hacc
        simp only [List.length_append, List.length_cons, List.length_nil]
        push_cast at hacc hcap ⊢
        omega
      · intro e' he'
        rcases List.mem_append.mp he' with h' | h'
        · exact hfitCS e' h'
        · have : e' = e := by simpa using h'
          subst this
          exact hlen
      · intro x
        simp only [stateElems, List.count_append, List.count_cons, List.count_nil]
        omega
    · rename_i hcond hcap
      push_neg at hcond
      obtain ⟨hlen, hw1, hh1⟩ := hcond
      obtain ⟨dfit, hdfit⟩ := List.length_eq_one.mp hlen
      have hhead : (fitting e qx qy qw qh).headD Dir.NW = dfit := by
        rw [hdfit]; rfl
      have hfb := flushList_basic qx qy qw qh s.contents
        (PushState.addBatch { s with size := s.size + 1, contents := [] }
          ((fitting e qx qy qw qh).headD Dir.NW) e)
      have hab := addBatch_basic { s with size := s.size + 1, contents := ([] : List Elem) }
        ((fitting e qx qy qw qh).headD Dir.NW) e
      refine ⟨⟨?_, ?_, ?_, ?_, ?_⟩, ?_, ?_⟩
      · rw [hfb.1, hfb.2.1, hfb.2.2.1, hfb.2.2.2, hab.1, hab.2.1, hab.2.2.1, hab.2.2.2]
        simp only [batchesLen] at hacc ⊢
        simp only [List.length_nil]
        push_cast at hacc ⊢
        omega
      · rw [hfb.1, hab.1]
        simp only [List.length_nil]
        omega
      · rw [hfb.1, hab.1]
        intro e' he'
        simp at he'
      · intro d e' he'
        rcases flushList_batchAt_mem qx qy qw qh s.contents _ d e' he' with h' | h'
        · rw [addBatch_batchAt] at h'
          by_cases hd : d = (fitting e qx qy qw qh).headD Dir.NW
          · rw [if_pos hd] at h'
            rcases List.mem_append.mp h' with h'' | h''
            · exact hfitB d e' h''
            · have : e' = e := by simpa using h''
              subst this
              rw [hd, hhead, hdfit]
          · rw [if_neg hd] at h'
            exact hfitB d e' h'
        · have hfl := hfitCS e' h'.1
          obtain ⟨df, hdf⟩ := List.length_eq_one.mp hfl
          rw [hdf]
          have hh' : (fitting e' qx qy qw qh).headD Dir.NW = df := by rw [hdf]; rfl
          rw [hh'] at h'
          rw [h'.2]
      · intro hne
        exact ⟨hw1, hh1⟩
      · rw [hfb.2.2.1, hab.2.2.1]
      · intro x
        rw [flushList_count, addBatch_count]
        simp only [stateElems, List.count_append, List.count_cons, List.count_nil]
        omega

theorem foldPush_spec (qx qy qw qh qm sc : Int) (hsc : 0 ≤ sc) :
    ∀ (items : List Elem) (s : PushState), PushInv qx qy qw qh qm sc s →
    PushInv qx qy qw qh qm sc (items.foldl (pushStep qx qy qw qh qm) s) ∧
    (items.foldl (pushStep qx qy qw qh qm) s).size = s.size + (items.length : Int) ∧
    (∀ x, (stateElems (items.foldl (pushStep qx qy qw qh qm) s)).count x =
      (stateElems s).count x + items.count x)
  | [], s, h => ⟨h, by simp, by simp⟩
  | e :: rest, s, h => by
    obtain ⟨h1, h2, h3⟩ := pushStep_spec qx qy qw qh qm sc hsc s e h
    obtain ⟨ih1, ih2, ih3⟩ :=
      foldPush_spec qx qy qw qh qm sc hsc rest (pushStep qx qy qw qh qm s e) h1
    refine ⟨by simpa using ih1, ?_, ?_⟩
    · simp only [List.foldl_cons] at ih2 ⊢
      rw [ih2, h2]
      simp only [List.length_cons]
      push_cast
      omega
    · intro x
      simp only [List.foldl_cons] at ih3 ⊢
      rw [ih3 x, h3 x]
      simp [List.count_cons]
      omega

/-- What one level of the insertion worklist guarantees: well-formedness is
preserved, size grows by the batch length, element multiplicities grow by the
batch multiplicities, and the node geometry fields are untouched. -/
def PushSpec (fuel : Nat) (t : QuadTree) (items : List Elem) : Prop :=
  WF (pushListFuel fuel t items) ∧
  (pushListFuel fuel t items).size = t.size + (items.length : Int) ∧
  (∀ x : Elem, (dfsElems (pushListFuel fuel t items)).count x =
    (dfsElems t).count x + items.count x) ∧
  (pushListFuel fuel t items).x = t.x ∧
  (pushListFuel fuel t items).y = t.y ∧
  (pushListFuel fuel t items).width = t.width ∧
  (pushListFuel fuel t items).height = t.height ∧
  (pushListFuel fuel t items).maxElements = t.maxElements

theorem dfsElems_childCreate (qx qy qw qh qm : Int) (d : Dir) :
    dfsElems (childCreate qx qy qw qh qm d) = [] := by
  cases d <;> rfl

theorem size_childCreate (qx qy qw qh qm : Int) (d : Dir) :
    (childCreate qx qy qw qh qm d).size = 0 := by
  cases d <;> rfl

theorem optPush_spec (fuel : Nat)
    (IH : ∀ (t' : QuadTree) (items' : List Elem), WF t' → qtMeasure t' ≤ fuel →
      PushSpec fuel t' items')
    (qx qy qw qh qm : Int) (d : Dir) (c : Option QuadTree) (b : List Elem)
    (hok : childOKP qx qy qw qh qm d c)
    (hfit : ∀ e ∈ b, fitting e qx qy qw qh = [d])
    (hmin : b ≠ [] → qw ≠ 1 ∧ qh ≠ 1)
    (hw : 1 ≤ qw) (hh : 1 ≤ qh) (hqm : 1 ≤ qm)
    (hfuel : qw.toNat + qh.toNat ≤ fuel + 1) :
    childOKP qx qy qw qh qm d (optPush (pushListFuel fuel) qx qy qw qh qm d c b) ∧
    sizeField (optPush (pushListFuel fuel) qx qy qw qh qm d c b) =
      sizeField c + (b.length : Int) ∧
    (∀ x, (dfsElemsOpt (optPush (pushListFuel fuel) qx qy qw qh qm d c b)).count x =
      (dfsElemsOpt c).count x + b.count x) := by
  by_cases hb : b.isEmpty
  · have hbnil : b = [] := List.isEmpty_iff.mp hb
    subst hbnil
    simp only [optPush, List.isEmpty_nil, if_true]
    exact ⟨hok, by simp, by intro x; simp⟩
  · simp only [optPush, if_neg hb]
    have hbne : b ≠ [] := fun hcon => hb (by rw [hcon]; rfl)
    obtain ⟨hw1, hh1⟩ := hmin hbne
    have h2w : 2 ≤ qw := by omega
    have h2h : 2 ≤ qh := by omega
    obtain ⟨dd1, dd2, dd3⟩ := childRect_dims qx qy qw qh hw hh d
    obtain ⟨dd4, dd5⟩ := dd3 h2w h2h
    cases c with
    | none =>
      simp only [Option.getD]
      have hWFc : WF (childCreate qx qy qw qh qm d) :=
        WF_childCreate _ _ _ _ _ hw hh hqm d
      have hmeas : qtMeasure (childCreate qx qy qw qh qm d) ≤ fuel := by
        simp only [qtMeasure, childCreate, QuadTree.width, QuadTree.height]
        omega
      obtain ⟨sWF, sSize, sCount, sX, sY, sW, sH, sM⟩ := IH _ b hWFc hmeas
      have hce : dfsElems (childCreate qx qy qw qh qm d) = [] :=
        dfsElems_childCreate qx qy qw qh qm d
      refine ⟨⟨⟨?_, ?_, ?_, ?_, ?_, ?_⟩, sWF⟩, ?_, ?_⟩
      · rw [sX]; cases d <;> rfl
      · rw [sY]; cases d <;> rfl
      · rw [sW]; cases d <;> rfl
      · rw [sH]; cases d <;> rfl
      · rw [sM]; cases d <;> rfl
      · intro e he
        have hc := List.count_pos_iff.mpr he
        rw [sCount e, hce] at hc
        simp only [List.count_nil, Nat.zero_add] at hc
        exact fit_single_calcDir e qx qy qw qh h2w h2h d
          (hfit e (List.count_pos_iff.mp hc))
      · rw [sizeField_some, sSize, size_childCreate]
        simp [sizeField]
      · intro x
        rw [dfsElemsOpt_some, sCount x, hce]
        simp [dfsElemsOpt_none]
    | some ct =>
      obtain ⟨⟨g1, g2, g3, g4, g5, g6⟩, hWFct⟩ := hok
      simp only [Option.getD]
      have hmeas : qtMeasure ct ≤ fuel := by
        simp only [qtMeasure]
        rw [g3, g4]
        omega
      obtain ⟨sWF, sSize, sCount, sX, sY, sW, sH, sM⟩ := IH ct b hWFct hmeas
      refine ⟨⟨⟨?_, ?_, ?_, ?_, ?_, ?_⟩, sWF⟩, ?_, ?_⟩
      · rw [sX]; exact g1
      · rw [sY]; exact g2
      · rw [sW]; exact g3
      · rw [sH]; exact g4
      · rw [sM]; exact g5
      · intro e he
        have hc := List.count_pos_iff.mpr he
        rw [sCount e] at hc
        by_cases hin : 0 < (dfsElems ct).count e
        · exact g6 e (List.count_pos_iff.mp hin)
        · have hcb : 0 < b.count e := by omega
          exact fit_single_calcDir e qx qy qw qh h2w h2h d
            (hfit e (List.count_pos_iff.mp hcb))
      · rw [sizeField_some, sizeField_some, sSize]
      · intro x
        rw [dfsElemsOpt_some, dfsElemsOpt_some, sCount x]

theorem pushListFuel_spec : ∀ (fuel : Nat) (t : QuadTree) (items : List Elem),
    WF t → qtMeasure t ≤ fuel → PushSpec fuel t items := by
  intro fuel
  induction fuel with
  | zero =>
    intro t items hWF hm
    exfalso
    cases t with
    | node qx qy qw qh qm cs os sz c1 c2 c3 c4 =>
      rw [WF_node] at hWF
      simp only [qtMeasure, QuadTree.width, QuadTree.height] at hm
      omega
  | succ fuel IH =>
    intro t items hWF hm
    cases t with
    | node qx qy qw qh qm cs os sz c1 c2 c3 c4 =>
      rw [WF_node] at hWF
      obtain ⟨hqw, hqh, hqm, hbound, hacc, hfitCS, hc1, hc2, hc3, hc4⟩ := hWF
      simp only [qtMeasure, QuadTree.width, QuadTree.height] at hm
      have hnn : ∀ (c : Option QuadTree) (d : Dir),
          childOKP qx qy qw qh qm d c → 0 ≤ sizeField c := by
        intro c d hc
        cases c with
        | none => simp [sizeField]
        | some ct => rw [sizeField_some]; exact WF_size_nonneg ct hc.2
      have hsc : 0 ≤ sizeField c1 + sizeField c2 + sizeField c3 + sizeField c4 := by
        have := hnn c1 Dir.NW hc1
        have := hnn c2 Dir.NE hc2
        have := hnn c3 Dir.SW hc3
        have := hnn c4 Dir.SE hc4
        omega
      have hinv0 : PushInv qx qy qw qh qm
          (sizeField c1 + sizeField c2 + sizeField c3 + sizeField c4)
          (PushState.mk cs os sz [] [] [] []) := by
        refine ⟨?_, hbound, hfitCS, ?_, ?_⟩
        · simp only [batchesLen, List.length_nil]
          push_cast
          omega
        · intro d e he
          cases d <;> simp [PushState.batchAt] at he
        · intro hne
          simp [batchesLen] at hne
      simp only [PushSpec, pushListFuel, QuadTree.x, QuadTree.y, QuadTree.width,
        QuadTree.height, QuadTree.maxElements, QuadTree.size]
      set F := items.foldl (pushStep qx qy qw qh qm)
        (PushState.mk cs os sz [] [] [] []) with hF
      obtain ⟨hinvF, hsizeF, hcountF⟩ := foldPush_spec qx qy qw qh qm
        (sizeField c1 + sizeField c2 + sizeField c3 + sizeField c4) hsc items
        (PushState.mk cs os sz [] [] [] []) hinv0
      rw [← hF] at hinvF hsizeF hcountF
      obtain ⟨hacc', hbound', hfitCS', hfitB', hmin'⟩ := hinvF
      have hone : ∀ b : List Elem,
          (b = F.bNW ∨ b = F.bNE ∨ b = F.bSW ∨ b = F.bSE) →
          b ≠ [] → qw ≠ 1 ∧ qh ≠ 1 := by
        intro b hbor hbne
        apply hmin'
        have hpos : 0 < b.length := List.length_pos.mpr hbne
        simp only [batchesLen]
        rcases hbor with hb | hb | hb | hb <;> rw [hb] at hpos <;> omega
      have hfuel2 : qw.toNat + qh.toNat ≤ fuel + 1 := hm
      have hfB : ∀ d : Dir, ∀ e ∈ F.batchAt d, fitting e qx qy qw qh = [d] := hfitB'
      have H1 := optPush_spec fuel IH qx qy qw qh qm Dir.NW c1 F.bNW hc1
        (fun e he => hfB Dir.NW e he) (hone F.bNW (Or.inl rfl)) hqw hqh hqm hfuel2
      have H2 := optPush_spec fuel IH qx qy qw qh qm Dir.NE c2 F.bNE hc2
        (fun e he => hfB Dir.NE e he) (hone F.bNE (Or.inr (Or.inl rfl)))
        hqw hqh hqm hfuel2
      have H3 := optPush_spec fuel IH qx qy qw qh qm Dir.SW c3 F.bSW hc3
        (fun e he => hfB Dir.SW e he) (hone F.bSW (Or.inr (Or.inr (Or.inl rfl))))
        hqw hqh hqm hfuel2
      have H4 := optPush_spec fuel IH qx qy qw qh qm Dir.SE c4 F.bSE hc4
        (fun e he => hfB Dir.SE e he) (hone F.bSE (Or.inr (Or.inr (Or.inr rfl))))
        hqw hqh hqm hfuel2
      obtain ⟨H1ok, H1sz, H1ct⟩ := H1
      obtain ⟨H2ok, H2sz, H2ct⟩ := H2
      obtain ⟨H3ok, H3sz, H3ct⟩ := H3
      obtain ⟨H4ok, H4sz, H4ct⟩ := H4
      refine ⟨?_, ?_, ?_, trivial, trivial, trivial, trivial, trivial⟩
      · rw [WF_node]
        refine ⟨hqw, hqh, hqm, hbound', ?_, hfitCS', H1ok, H2ok, H3ok, H4ok⟩
        rw [H1sz, H2sz, H3sz, H4sz]
        simp only [batchesLen] at hacc'
        push_cast at hacc' ⊢
        omega
      · rw [hsizeF]
      · intro x
        rw [dfsElems_node, dfsElems_node]
        simp only [List.count_append]
        rw [H1ct x, H2ct x, H3ct x, H4ct x]
        have hc := hcountF x
        simp only [stateElems, List.count_append, List.count_nil] at hc
        omega

/-! Specification of removal. -/

theorem ite_beq_le_count (e x : Elem) (l : List Elem) (he : e ∈ l) :
    (if e == x then 1 else 0) ≤ l.count x := by
  by_cases hxe : e == x
  · have hex : e = x := eq_of_beq hxe
    subst hex
    simp only [hxe, if_true]
    exact List.count_pos_iff.mpr he
  · simp [hxe]

theorem childOKP_placement (qx qy qw qh qm : Int) (d : Dir) (c : Option QuadTree)
    (hok : childOKP qx qy qw qh qm d c) (e : Elem) (he : e ∈ dfsElemsOpt c) :
    calculateDirection e qx qy qw qh = d := by
  cases c with
  | none => simp [dfsElemsOpt] at he
  | some ct => exact hok.1.2.2.2.2.2 e he

theorem not_mem_node (qx qy qw qh qm : Int) (cs os : List Elem) (sz : Int)
    (c1 c2 c3 c4 : Option QuadTree) (e : Elem)
    (h1 : e ∉ os) (h2 : e ∉ cs) (h3 : e ∉ dfsElemsOpt c1) (h4 : e ∉ dfsElemsOpt c2)
    (h5 : e ∉ dfsElemsOpt c3) (h6 : e ∉ dfsElemsOpt c4) :
    e ∉ dfsElems (.node qx qy qw qh qm cs os sz c1 c2 c3 c4) := by
  rw [dfsElems_node]
  intro hm
  simp only [List.mem_append] at hm
  tauto

theorem removeOk_node (qx qy qw qh qm : Int) (cs os : List Elem) (sz : Int)
    (c1 c2 c3 c4 : Option QuadTree) (e : Elem) :
    removeOk (.node qx qy qw qh qm cs os sz c1 c2 c3 c4) e =
      (if os.contains e then
        (true, .node qx qy qw qh qm cs (os.erase e) (sz - 1) c1 c2 c3 c4)
      else if cs.contains e then
        (true, .node qx qy qw qh qm (cs.erase e) os (sz - 1) c1 c2 c3 c4)
      else if calculateDirection e qx qy qw qh = Dir.NW then
        match c1 with
        | none => (false, .node qx qy qw qh qm cs os sz c1 c2 c3 c4)
        | some c =>
          if (removeOk c e).1 then
            (true, .node qx qy qw qh qm cs os (sz - 1)
              (if (removeOk c e).2.size = 0 then none else some (removeOk c e).2) c2 c3 c4)
          else (false, .node qx qy qw qh qm cs os sz c1 c2 c3 c4)
      else if calculateDirection e qx qy qw qh = Dir.NE then
        match c2 with
        | none => (false, .node qx qy qw qh qm cs os sz c1 c2 c3 c4)
        | some c =>
          if (removeOk c e).1 then
            (true, .node qx qy qw qh qm cs os (sz - 1)
              c1 (if (removeOk c e).2.size = 0 then none else some (removeOk c e).2) c3 c4)
          else (false, .node qx qy qw qh qm cs os sz c1 c2 c3 c4)
      else if calculateDirection e qx qy qw qh = Dir.SW then
        match c3 with
        | none => (false, .node qx qy qw qh qm cs os sz c1 c2 c3 c4)
        | some c =>
          if (removeOk c e).1 then
            (true, .node qx qy qw qh qm cs os (sz - 1)
              c1 c2 (if (removeOk c e).2.size = 0 then none else some (removeOk c e).2) c4)
          else (false, .node qx qy qw qh qm cs os sz c1 c2 c3 c4)
      else
        match c4 with
        | none => (false, .node qx qy qw qh qm cs os sz c1 c2 c3 c4)
        | some c =>
          if (removeOk c e).1 then
            (true, .node qx qy qw qh qm cs os (sz - 1)
              c1 c2 c3 (if (removeOk c e).2.size = 0 then none else some (removeOk c e).2))
          else (false, .node qx qy qw qh qm cs os sz c1 c2 c3 c4)) := by
  rw [removeOk.eq_def]


theorem removeOk_spec : ∀ (t : QuadTree) (e : Elem), WF t →
    (e ∉ dfsElems t → removeOk t e = (false, t)) ∧
    (e ∈ dfsElems t →
      (removeOk t e).1 = true ∧
      WF (removeOk t e).2 ∧
      (removeOk t e).2.size = t.size - 1 ∧
      (∀ x, (dfsElems (removeOk t e).2).count x =
        (dfsElems t).count x - (if e == x then 1 else 0)) ∧
      (removeOk t e).2.x = t.x ∧ (removeOk t e).2.y = t.y ∧
      (removeOk t e).2.width = t.width ∧ (removeOk t e).2.height = t.height ∧
      (removeOk t e).2.maxElements = t.maxElements)
  | .node qx qy qw qh qm cs os sz c1 c2 c3 c4, e => by
    intro hWF
    have hWFn := hWF
    rw [WF_node] at hWFn
    obtain ⟨hqw, hqh, hqm, hbound, hacc, hfitCS, hc1, hc2, hc3, hc4⟩ := hWFn
    rw [removeOk_node]
    by_cases hos : os.contains e = true
    · have hosm : e ∈ os := List.elem_iff.mp hos
      rw [if_pos hos]
      constructor
      · intro hnm
        exact absurd (by
          rw [dfsElems_node]
          simp only [List.mem_append]
          tauto : e ∈ dfsElems (QuadTree.node qx qy qw qh qm cs os sz c1 c2 c3 c4)) hnm
      · intro _
        refine ⟨rfl, ?_, rfl, ?_, rfl, rfl, rfl, rfl, rfl⟩
        · rw [WF_node]
          have hlen := List.length_erase_of_mem hosm
          have hpos := List.length_pos_of_mem hosm
          refine ⟨hqw, hqh, hqm, hbound, ?_, hfitCS, hc1, hc2, hc3, hc4⟩
          omega
        · intro x
          rw [dfsElems_node, dfsElems_node]
          simp only [List.count_append]
          have hce := List.count_erase x e os
          have hle := ite_beq_le_count e x os hosm
          omega
    · have hosm : e ∉ os := fun hm => hos (List.elem_iff.mpr hm)
      rw [if_neg hos]
      by_cases hcs : cs.contains e = true
      · have hcsm : e ∈ cs := List.elem_iff.mp hcs
        rw [if_pos hcs]
        constructor
        · intro hnm
          exact absurd (by
            rw [dfsElems_node]
            simp only [List.mem_append]
            tauto : e ∈ dfsElems (QuadTree.node qx qy qw qh qm cs os sz c1 c2 c3 c4)) hnm
        · intro _
          refine ⟨rfl, ?_, rfl, ?_, rfl, rfl, rfl, rfl, rfl⟩
          · rw [WF_node]
            have hlen := List.length_erase_of_mem hcsm
            have hpos := List.length_pos_of_mem hcsm
            refine ⟨hqw, hqh, hqm, ?_, ?_, ?_, hc1, hc2, hc3, hc4⟩
            · omega
            · omega
            · intro e' he'
              exact hfitCS e' (List.mem_of_mem_erase he')
          · intro x
            rw [dfsElems_node, dfsElems_node]
            simp only [List.count_append]
            have hce := List.count_erase x e cs
            have hle := ite_beq_le_count e x cs hcsm
            omega
      · have hcsm : e ∉ cs := fun hm => hcs (List.elem_iff.mpr hm)
        rw [if_neg hcs]
        cases hd : calculateDirection e qx qy qw qh with
      | NW =>
        rw [if_pos rfl]
        cases c1 with
        | none =>
          dsimp only
          have hx0 : e ∉ dfsElemsOpt c2 := by
            intro hmem2
            have hpl := childOKP_placement qx qy qw qh qm Dir.NE c2 hc2 e hmem2
            exact absurd (hd.symm.trans hpl) (by decide)
          have hx1 : e ∉ dfsElemsOpt c3 := by
            intro hmem2
            have hpl := childOKP_placement qx qy qw qh qm Dir.SW c3 hc3 e hmem2
            exact absurd (hd.symm.trans hpl) (by decide)
          have hx2 : e ∉ dfsElemsOpt c4 := by
            intro hmem2
            have hpl := childOKP_placement qx qy qw qh qm Dir.SE c4 hc4 e hmem2
            exact absurd (hd.symm.trans hpl) (by decide)
          have hx3 : e ∉ dfsElemsOpt (none : Option QuadTree) := by
            simp [dfsElemsOpt]
          have hnot := not_mem_node qx qy qw qh qm cs os sz _ _ _ _ e hosm hcsm
            hx3 hx0 hx1 hx2
          exact ⟨fun _ => rfl, fun hmem => absurd hmem hnot⟩
        | some ct =>
          dsimp only
          have hWFct := hc1.2
          have IH := removeOk_spec ct e hWFct
          by_cases hein : e ∈ dfsElems ct
          · obtain ⟨ih1, ih2, ih3, ih4, ihx, ihy, ihw, ihh, ihm⟩ := IH.2 hein
            rw [if_pos ih1]
            have hK : e ∈ dfsElemsOpt (some ct) := by
              rw [dfsElemsOpt_some]
              exact hein
            have hmm : e ∈ dfsElems (QuadTree.node qx qy qw qh qm cs os sz (some ct) c2 c3 c4) := by
              rw [dfsElems_node]
              exact List.mem_append_right _ (List.mem_append_left _ (List.mem_append_left _ (List.mem_append_left _ hK)))
            by_cases hz : (removeOk ct e).2.size = 0
            · rw [if_pos hz]
              have hnil : dfsElems (removeOk ct e).2 = [] := by
                apply List.length_eq_zero.mp
                have hl := WF_size_len _ ih2
                rw [hz] at hl
                exact_mod_cast hl.symm
              have hcnil : ∀ x, (dfsElems ct).count x = (if e == x then 1 else 0) := by
                intro x
                have h4 := ih4 x
                rw [hnil] at h4
                simp only [List.count_nil] at h4
                have hle := ite_beq_le_count e x (dfsElems ct) hein
                omega
              have hctsz : ct.size = 1 := by
                have h3 := ih3
                rw [hz] at h3
                have hnn := WF_size_nonneg ct hWFct
                omega
              constructor
              · intro hnm
                exact absurd hmm hnm
              · intro _
                refine ⟨rfl, ?_, rfl, ?_, rfl, rfl, rfl, rfl, rfl⟩
                · rw [WF_node]
                  refine ⟨hqw, hqh, hqm, hbound, ?_, hfitCS, trivial, hc2, hc3, hc4⟩
                  have hsf : sizeField (some ct) = ct.size := sizeField_some ct
                  simp only [sizeField_none]
                  omega
                · intro x
                  rw [dfsElems_node, dfsElems_node]
                  simp only [List.count_append, dfsElemsOpt_none, dfsElemsOpt_some,
                    List.count_nil]
                  have hcn := hcnil x
                  omega
            · rw [if_neg hz]
              constructor
              · intro hnm
                exact absurd hmm hnm
              · intro _
                refine ⟨rfl, ?_, rfl, ?_, rfl, rfl, rfl, rfl, rfl⟩
                · rw [WF_node]
                  refine ⟨hqw, hqh, hqm, hbound, ?_, hfitCS, ?_, hc2, hc3, hc4⟩
                  · have hsf : sizeField (some ct) = ct.size := sizeField_some ct
                    simp only [sizeField_some]
                    omega
                  · refine ⟨⟨?_, ?_, ?_, ?_, ?_, ?_⟩, ih2⟩
                    · rw [ihx]; exact hc1.1.1
                    · rw [ihy]; exact hc1.1.2.1
                    · rw [ihw]; exact hc1.1.2.2.1
                    · rw [ihh]; exact hc1.1.2.2.2.1
                    · rw [ihm]; exact hc1.1.2.2.2.2.1
                    · intro e' he'
                      have hp := List.count_pos_iff.mpr he'
                      rw [ih4 e'] at hp
                      have hpos : 0 < (dfsElems ct).count e' := by omega
                      exact hc1.1.2.2.2.2.2 e' (List.count_pos_iff.mp hpos)
                · intro x
                  rw [dfsElems_node, dfsElems_node]
                  simp only [List.count_append, dfsElemsOpt_some]
                  have h4 := ih4 x
                  have hle := ite_beq_le_count e x (dfsElems ct) hein
                  omega
          · have hfail := IH.1 hein
            have hf1 : (removeOk ct e).1 = false := by rw [hfail]
            rw [if_neg (by simp [hf1])]
            have hx0 : e ∉ dfsElemsOpt c2 := by
              intro hmem2
              have hpl := childOKP_placement qx qy qw qh qm Dir.NE c2 hc2 e hmem2
              exact absurd (hd.symm.trans hpl) (by decide)
            have hx1 : e ∉ dfsElemsOpt c3 := by
              intro hmem2
              have hpl := childOKP_placement qx qy qw qh qm Dir.SW c3 hc3 e hmem2
              exact absurd (hd.symm.trans hpl) (by decide)
            have hx2 : e ∉ dfsElemsOpt c4 := by
              intro hmem2
              have hpl := childOKP_placement qx qy qw qh qm Dir.SE c4 hc4 e hmem2
              exact absurd (hd.symm.trans hpl) (by decide)
            have hein' : e ∉ dfsElemsOpt (some ct) := by
              rw [dfsElemsOpt_some]
              exact hein
            have hnot := not_mem_node qx qy qw qh qm cs os sz _ _ _ _ e hosm hcsm
              hein' hx0 hx1 hx2
            exact ⟨fun _ => rfl, fun hmem => absurd hmem hnot⟩
      | NE =>
        rw [if_neg (by decide), if_pos rfl]
        cases c2 with
        | none =>
          dsimp only
          have hx0 : e ∉ dfsElemsOpt c1 := by
            intro hmem2
            have hpl := childOKP_placement qx qy qw qh qm Dir.NW c1 hc1 e hmem2
            exact absurd (hd.symm.trans hpl) (by decide)
          have hx1 : e ∉ dfsElemsOpt c3 := by
            intro hmem2
            have hpl := childOKP_placement qx qy qw qh qm Dir.SW c3 hc3 e hmem2
            exact absurd (hd.symm.trans hpl) (by decide)
          have hx2 : e ∉ dfsElemsOpt c4 := by
            intro hmem2
            have hpl := childOKP_placement qx qy qw qh qm Dir.SE c4 hc4 e hmem2
            exact absurd (hd.symm.trans hpl) (by decide)
          have hx3 : e ∉ dfsElemsOpt (none : Option QuadTree) := by
            simp [dfsElemsOpt]
          have hnot := not_mem_node qx qy qw qh qm cs os sz _ _ _ _ e hosm hcsm
            hx0 hx3 hx1 hx2
          exact ⟨fun _ => rfl, fun hmem => absurd hmem hnot⟩
        | some ct =>
          dsimp only
          have hWFct := hc2.2
          have IH := removeOk_spec ct e hWFct
          by_cases hein : e ∈ dfsElems ct
          · obtain ⟨ih1, ih2, ih3, ih4, ihx, ihy, ihw, ihh, ihm⟩ := IH.2 hein
            rw [if_pos ih1]
            have hK : e ∈ dfsElemsOpt (some ct) := by
              rw [dfsElemsOpt_some]
              exact hein
            have hmm : e ∈ dfsElems (QuadTree.node qx qy qw qh qm cs os sz c1 (some ct) c3 c4) := by
              rw [dfsElems_node]
              exact List.mem_append_right _ (List.mem_append_left _ (List.mem_append_left _ (List.mem_append_right _ hK)))
            by_cases hz : (removeOk ct e).2.size = 0
            · rw [if_pos hz]
              have hnil : dfsElems (removeOk ct e).2 = [] := by
                apply List.length_eq_zero.mp
                have hl := WF_size_len _ ih2
                rw [hz] at hl
                exact_mod_cast hl.symm
              have hcnil : ∀ x, (dfsElems ct).count x = (if e == x then 1 else 0) := by
                intro x
                have h4 := ih4 x
                rw [hnil] at h4
                simp only [List.count_nil] at h4
                have hle := ite_beq_le_count e x (dfsElems ct) hein
                omega
              have hctsz : ct.size = 1 := by
                have h3 := ih3
                rw [hz] at h3
                have hnn := WF_size_nonneg ct hWFct
                omega
              constructor
              · intro hnm
                exact absurd hmm hnm
              · intro _
                refine ⟨rfl, ?_, rfl, ?_, rfl, rfl, rfl, rfl, rfl⟩
                · rw [WF_node]
                  refine ⟨hqw, hqh, hqm, hbound, ?_, hfitCS, hc1, trivial, hc3, hc4⟩
                  have hsf : sizeField (some ct) = ct.size := sizeField_some ct
                  simp only [sizeField_none]
                  omega
                · intro x
                  rw [dfsElems_node, dfsElems_node]
                  simp only [List.count_append, dfsElemsOpt_none, dfsElemsOpt_some,
                    List.count_nil]
                  have hcn := hcnil x
                  omega
            · rw [if_neg hz]
              constructor
              · intro hnm
                exact absurd hmm hnm
              · intro _
                refine ⟨rfl, ?_, rfl, ?_, rfl, rfl, rfl, rfl, rfl⟩
                · rw [WF_node]
                  refine ⟨hqw, hqh, hqm, hbound, ?_, hfitCS, hc1, ?_, hc3, hc4⟩
                  · have hsf : sizeField (some ct) = ct.size := sizeField_some ct
                    simp only [sizeField_some]
                    omega
                  · refine ⟨⟨?_, ?_, ?_, ?_, ?_, ?_⟩, ih2⟩
                    · rw [ihx]; exact hc2.1.1
                    · rw [ihy]; exact hc2.1.2.1
                    · rw [ihw]; exact hc2.1.2.2.1
                    · rw [ihh]; exact hc2.1.2.2.2.1
                    · rw [ihm]; exact hc2.1.2.2.2.2.1
                    · intro e' he'
                      have hp := List.count_pos_iff.mpr he'
                      rw [ih4 e'] at hp
                      have hpos : 0 < (dfsElems ct).count e' := by omega
                      exact hc2.1.2.2.2.2.2 e' (List.count_pos_iff.mp hpos)
                · intro x
                  rw [dfsElems_node, dfsElems_node]
                  simp only [List.count_append, dfsElemsOpt_some]
                  have h4 := ih4 x
                  have hle := ite_beq_le_count e x (dfsElems ct) hein
                  omega
          · have hfail := IH.1 hein
            have hf1 : (removeOk ct e).1 = false := by rw [hfail]
            rw [if_neg (by simp [hf1])]
            have hx0 : e ∉ dfsElemsOpt c1 := by
              intro hmem2
              have hpl := childOKP_placement qx qy qw qh qm Dir.NW c1 hc1 e hmem2
              exact absurd (hd.symm.trans hpl) (by decide)
            have hx1 : e ∉ dfsElemsOpt c3 := by
              intro hmem2
              have hpl := childOKP_placement qx qy qw qh qm Dir.SW c3 hc3 e hmem2
              exact absurd (hd.symm.trans hpl) (by decide)
            have hx2 : e ∉ dfsElemsOpt c4 := by
              intro hmem2
              have hpl := childOKP_placement qx qy qw qh qm Dir.SE c4 hc4 e hmem2
              exact absurd (hd.symm.trans hpl) (by decide)
            have hein' : e ∉ dfsElemsOpt (some ct) := by
              rw [dfsElemsOpt_some]
              exact hein
            have hnot := not_mem_node qx qy qw qh qm cs os sz _ _ _ _ e hosm hcsm
              hx0 hein' hx1 hx2
            exact ⟨fun _ => rfl, fun hmem => absurd hmem hnot⟩
      | SW =>
        rw [if_neg (by decide), if_neg (by decide), if_pos rfl]
        cases c3 with
        | none =>
          dsimp only
          have hx0 : e ∉ dfsElemsOpt c1 := by
            intro hmem2
            have hpl := childOKP_placement qx qy qw qh qm Dir.NW c1 hc1 e hmem2
            exact absurd (hd.symm.trans hpl) (by decide)
          have hx1 : e ∉ dfsElemsOpt c2 := by
            intro hmem2
            have hpl := childOKP_placement qx qy qw qh qm Dir.NE c2 hc2 e hmem2
            exact absurd (hd.symm.trans hpl) (by decide)
          have hx2 : e ∉ dfsElemsOpt c4 := by
            intro hmem2
            have hpl := childOKP_placement qx qy qw qh qm Dir.SE c4 hc4 e hmem2
            exact absurd (hd.symm.trans hpl) (by decide)
          have hx3 : e ∉ dfsElemsOpt (none : Option QuadTree) := by
            simp [dfsElemsOpt]
          have hnot := not_mem_node qx qy qw qh qm cs os sz _ _ _ _ e hosm hcsm
            hx0 hx1 hx3 hx2
          exact ⟨fun _ => rfl, fun hmem => absurd hmem hnot⟩
        | some ct =>
          dsimp only
          have hWFct := hc3.2
          have IH := removeOk_spec ct e hWFct
          by_cases hein : e ∈ dfsElems ct
          · obtain ⟨ih1, ih2, ih3, ih4, ihx, ihy, ihw, ihh, ihm⟩ := IH.2 hein
            rw [if_pos ih1]
            have hK : e ∈ dfsElemsOpt (some ct) := by
              rw [dfsElemsOpt_some]
              exact hein
            have hmm : e ∈ dfsElems (QuadTree.node qx qy qw qh qm cs os sz c1 c2 (some ct) c4) := by
              rw [dfsElems_node]
              exact List.mem_append_right _ (List.mem_append_left _ (List.mem_append_right _ hK))
            by_cases hz : (removeOk ct e).2.size = 0
            · rw [if_pos hz]
              have hnil : dfsElems (removeOk ct e).2 = [] := by
                apply List.length_eq_zero.mp
                have hl := WF_size_len _ ih2
                rw [hz] at hl
                exact_mod_cast hl.symm
              have hcnil : ∀ x, (dfsElems ct).count x = (if e == x then 1 else 0) := by
                intro x
                have h4 := ih4 x
                rw [hnil] at h4
                simp only [List.count_nil] at h4
                have hle := ite_beq_le_count e x (dfsElems ct) hein
                omega
              have hctsz : ct.size = 1 := by
                have h3 := ih3
                rw [hz] at h3
                have hnn := WF_size_nonneg ct hWFct
                omega
              constructor
              · intro hnm
                exact absurd hmm hnm
              · intro _
                refine ⟨rfl, ?_, rfl, ?_, rfl, rfl, rfl, rfl, rfl⟩
                · rw [WF_node]
                  refine ⟨hqw, hqh, hqm, hbound, ?_, hfitCS, hc1, hc2, trivial, hc4⟩
                  have hsf : sizeField (some ct) = ct.size := sizeField_some ct
                  simp only [sizeField_none]
                  omega
                · intro x
                  rw [dfsElems_node, dfsElems_node]
                  simp only [List.count_append, dfsElemsOpt_none, dfsElemsOpt_some,
                    List.count_nil]
                  have hcn := hcnil x
                  omega
            · rw [if_neg hz]
              constructor
              · intro hnm
                exact absurd hmm hnm
              · intro _
                refine ⟨rfl, ?_, rfl, ?_, rfl, rfl, rfl, rfl, rfl⟩
                · rw [WF_node]
                  refine ⟨hqw, hqh, hqm, hbound, ?_, hfitCS, hc1, hc2, ?_, hc4⟩
                  · have hsf : sizeField (some ct) = ct.size := sizeField_some ct
                    simp only [sizeField_some]
                    omega
                  · refine ⟨⟨?_, ?_, ?_, ?_, ?_, ?_⟩, ih2⟩
                    · rw [ihx]; exact hc3.1.1
                    · rw [ihy]; exact hc3.1.2.1
                    · rw [ihw]; exact hc3.1.2.2.1
                    · rw [ihh]; exact hc3.1.2.2.2.1
                    · rw [ihm]; exact hc3.1.2.2.2.2.1
                    · intro e' he'
                      have hp := List.count_pos_iff.mpr he'
                      rw [ih4 e'] at hp
                      have hpos : 0 < (dfsElems ct).count e' := by omega
                      exact hc3.1.2.2.2.2.2 e' (List.count_pos_iff.mp hpos)
                · intro x
                  rw [dfsElems_node, dfsElems_node]
                  simp only [List.count_append, dfsElemsOpt_some]
                  have h4 := ih4 x
                  have hle := ite_beq_le_count e x (dfsElems ct) hein
                  omega
          · have hfail := IH.1 hein
            have hf1 : (removeOk ct e).1 = false := by rw [hfail]
            rw [if_neg (by simp [hf1])]
            have hx0 : e ∉ dfsElemsOpt c1 := by
              intro hmem2
              have hpl := childOKP_placement qx qy qw qh qm Dir.NW c1 hc1 e hmem2
              exact absurd (hd.symm.trans hpl) (by decide)
            have hx1 : e ∉ dfsElemsOpt c2 := by
              intro hmem2
              have hpl := childOKP_placement qx qy qw qh qm Dir.NE c2 hc2 e hmem2
              exact absurd (hd.symm.trans hpl) (by decide)
            have hx2 : e ∉ dfsElemsOpt c4 := by
              intro hmem2
              have hpl := childOKP_placement qx qy qw qh qm Dir.SE c4 hc4 e hmem2
              exact absurd (hd.symm.trans hpl) (by decide)
            have hein' : e ∉ dfsElemsOpt (some ct) := by
              rw [dfsElemsOpt_some]
              exact hein
            have hnot := not_mem_node qx qy qw qh qm cs os sz _ _ _ _ e hosm hcsm
              hx0 hx1 hein' hx2
            exact ⟨fun _ => rfl, fun hmem => absurd hmem hnot⟩
      | SE =>
        rw [if_neg (by decide), if_neg (by decide), if_neg (by decide)]
        cases c4 with
        | none =>
          dsimp only
          have hx0 : e ∉ dfsElemsOpt c1 := by
            intro hmem2
            have hpl := childOKP_placement qx qy qw qh qm Dir.NW c1 hc1 e hmem2
            exact absurd (hd.symm.trans hpl) (by decide)
          have hx1 : e ∉ dfsElemsOpt c2 := by
            intro hmem2
            have hpl := childOKP_placement qx qy qw qh qm Dir.NE c2 hc2 e hmem2
            exact absurd (hd.symm.trans hpl) (by decide)
          have hx2 : e ∉ dfsElemsOpt c3 := by
            intro hmem2
            have hpl := childOKP_placement qx qy qw qh qm Dir.SW c3 hc3 e hmem2
            exact absurd (hd.symm.trans hpl) (by decide)
          have hx3 : e ∉ dfsElemsOpt (none : Option QuadTree) := by
            simp [dfsElemsOpt]
          have hnot := not_mem_node qx qy qw qh qm cs os sz _ _ _ _ e hosm hcsm
            hx0 hx1 hx2 hx3
          exact ⟨fun _ => rfl, fun hmem => absurd hmem hnot⟩
        | some ct =>
          dsimp only
          have hWFct := hc4.2
          have IH := removeOk_spec ct e hWFct
          by_cases hein : e ∈ dfsElems ct
          · obtain ⟨ih1, ih2, ih3, ih4, ihx, ihy, ihw, ihh, ihm⟩ := IH.2 hein
            rw [if_pos ih1]
            have hK : e ∈ dfsElemsOpt (some ct) := by
              rw [dfsElemsOpt_some]
              exact hein
            have hmm : e ∈ dfsElems (QuadTree.node qx qy qw qh qm cs os sz c1 c2 c3 (some ct)) := by
              rw [dfsElems_node]
              exact List.mem_append_right _ (List.mem_append_right _ hK)
            by_cases hz : (removeOk ct e).2.size = 0
            · rw [if_pos hz]
              have hnil : dfsElems (removeOk ct e).2 = [] := by
                apply List.length_eq_zero.mp
                have hl := WF_size_len _ ih2
                rw [hz] at hl
                exact_mod_cast hl.symm
              have hcnil : ∀ x, (dfsElems ct).count x = (if e == x then 1 else 0) := by
                intro x
                have h4 := ih4 x
                rw [hnil] at h4
                simp only [List.count_nil] at h4
                have hle := ite_beq_le_count e x (dfsElems ct) hein
                omega
              have hctsz : ct.size = 1 := by
                have h3 := ih3
                rw [hz] at h3
                have hnn := WF_size_nonneg ct hWFct
                omega
              constructor
              · intro hnm
                exact absurd hmm hnm
              · intro _
                refine ⟨rfl, ?_, rfl, ?_, rfl, rfl, rfl, rfl, rfl⟩
                · rw [WF_node]
                  refine ⟨hqw, hqh, hqm, hbound, ?_, hfitCS, hc1, hc2, hc3, trivial⟩
                  have hsf : sizeField (some ct) = ct.size := sizeField_some ct
                  simp only [sizeField_none]
                  omega
                · intro x
                  rw [dfsElems_node, dfsElems_node]
                  simp only [List.count_append, dfsElemsOpt_none, dfsElemsOpt_some,
                    List.count_nil]
                  have hcn := hcnil x
                  omega
            · rw [if_neg hz]
              constructor
              · intro hnm
                exact absurd hmm hnm
              · intro _
                refine ⟨rfl, ?_, rfl, ?_, rfl, rfl, rfl, rfl, rfl⟩
                · rw [WF_node]
                  refine ⟨hqw, hqh, hqm, hbound, ?_, hfitCS, hc1, hc2, hc3, ?_⟩
                  · have hsf : sizeField (some ct) = ct.size := sizeField_some ct
                    simp only [sizeField_some]
                    omega
                  · refine ⟨⟨?_, ?_, ?_, ?_, ?_, ?_⟩, ih2⟩
                    · rw [ihx]; exact hc4.1.1
                    · rw [ihy]; exact hc4.1.2.1
                    · rw [ihw]; exact hc4.1.2.2.1
                    · rw [ihh]; exact hc4.1.2.2.2.1
                    · rw [ihm]; exact hc4.1.2.2.2.2.1
                    · intro e' he'
                      have hp := List.count_pos_iff.mpr he'
                      rw [ih4 e'] at hp
                      have hpos : 0 < (dfsElems ct).count e' := by omega
                      exact hc4.1.2.2.2.2.2 e' (List.count_pos_iff.mp hpos)
                · intro x
                  rw [dfsElems_node, dfsElems_node]
                  simp only [List.count_append, dfsElemsOpt_some]
                  have h4 := ih4 x
                  have hle := ite_beq_le_count e x (dfsElems ct) hein
                  omega
          · have hfail := IH.1 hein
            have hf1 : (removeOk ct e).1 = false := by rw [hfail]
            rw [if_neg (by simp [hf1])]
            have hx0 : e ∉ dfsElemsOpt c1 := by
              intro hmem2
              have hpl := childOKP_placement qx qy qw qh qm Dir.NW c1 hc1 e hmem2
              exact absurd (hd.symm.trans hpl) (by decide)
            have hx1 : e ∉ dfsElemsOpt c2 := by
              intro hmem2
              have hpl := childOKP_placement qx qy qw qh qm Dir.NE c2 hc2 e hmem2
              exact absurd (hd.symm.trans hpl) (by decide)
            have hx2 : e ∉ dfsElemsOpt c3 := by
              intro hmem2
              have hpl := childOKP_placement qx qy qw qh qm Dir.SW c3 hc3 e hmem2
              exact absurd (hd.symm.trans hpl) (by decide)
            have hein' : e ∉ dfsElemsOpt (some ct) := by
              rw [dfsElemsOpt_some]
              exact hein
            have hnot := not_mem_node qx qy qw qh qm cs os sz _ _ _ _ e hosm hcsm
              hx0 hx1 hx2 hein'
            exact ⟨fun _ => rfl, fun hmem => absurd hmem hnot⟩

/-! Reachable states are well-formed. -/

theorem make_ok_WF (o : QuadTreeOptions) (t : QuadTree)
    (h : QuadTree.make o = Except.ok t) : WF t := by
  unfold QuadTree.make at h
  cases hw : o.width with
  | none => rw [hw] at h; exact absurd h (by simp)
  | some w =>
    cases hh : o.height with
    | none => rw [hw, hh] at h; exact absurd h (by simp)
    | some ht =>
      rw [hw, hh] at h
      dsimp only at h
      by_cases hd : w < 1 ∨ ht < 1
      · rw [if_pos hd] at h; exact absurd h (by simp)
      · rw [if_neg hd] at h
        by_cases hm : jsOr o.maxElements 1 < 1
        · rw [if_pos hm] at h; exact absurd h (by simp)
        · rw [if_neg hm] at h
          injection h with h2
          rw [← h2]
          exact WF_leaf _ _ _ _ _ (by omega) (by omega) (by omega)

theorem WF_clear (t : QuadTree) (h : WF t) : WF t.clear := by
  cases t with
  | node qx qy qw qh qm cs os sz c1 c2 c3 c4 =>
    rw [WF_node] at h
    simp only [QuadTree.clear]
    exact WF_leaf _ _ _ _ _ h.1 h.2.1 h.2.2.1

theorem WF_of_reachable (t : QuadTree) (h : Reachable t) : WF t := by
  induction h with
  | construct o t ho => exact make_ok_WF o t ho
  | pushStep t items ht hv ih =>
    exact (pushListFuel_spec (qtMeasure t) t items ih le_rfl).1
  | removeStep t e ht hv ih =>
    by_cases hm : e ∈ dfsElems t
    · exact ((removeOk_spec t e ih).2 hm).2.1
    · rw [(removeOk_spec t e ih).1 hm]
      exact ih
  | clearStep t ht ih => exact WF_clear t ih

/-- C4: in every tree state reachable by construction, push/pushAll, remove
and clear, every node stores at most maxElements elements in its contents
list.  (An element joins contents only while size - oversized.length stays
within maxElements, and by the size accounting that quantity dominates the
contents length.) -/
theorem reachable_contents_le_maxElements (t : QuadTree) (hr : Reachable t) :
    ∀ n ∈ allNodes t, (n.contents.length : Int) ≤ n.maxElements := by
  intro n hn
  have hWFn := WF_allNodes t (WF_of_reachable t hr) n hn
  cases n with
  | node qx qy qw qh qm cs os sz c1 c2 c3 c4 =>
    rw [WF_node] at hWFn
    simpa [QuadTree.contents, QuadTree.maxElements] using hWFn.2.2.2.1

/-! A concrete reachable scenario: a 4 x 4 tree with maxElements 2; three
single-quadrant point elements force a split, two removals shrink the
subtree, one more push lands in contents while a child is still live. -/

def wA : Elem := ⟨1, some 0, some 0, none, none⟩

def wB : Elem := ⟨2, some 2, some 0, none, none⟩

def wC : Elem := ⟨3, some 2, some 2, none, none⟩

def wD : Elem := ⟨4, some 0, some 0, none, none⟩

def wOpts : QuadTreeOptions := ⟨some 4, some 4, none, none, some 2⟩

def wT0 : QuadTree := .node 0 0 4 4 2 [] [] 0 none none none none

def wT3 : QuadTree := pushListFuel (qtMeasure wT0) wT0 [wA, wB, wC]

def wT4 : QuadTree := (removeOk wT3 wA).2

def wT5 : QuadTree := (removeOk wT4 wB).2

def wT6 : QuadTree := pushListFuel (qtMeasure wT5) wT5 [wD]

theorem wT0_reachable : Reachable wT0 := Reachable.construct wOpts wT0 rfl

theorem wT3_reachable : Reachable wT3 :=
  Reachable.pushStep wT0 [wA, wB, wC] wT0_reachable rfl

theorem wT6_reachable : Reachable wT6 :=
  Reachable.pushStep wT5 [wD]
    (Reachable.removeStep wT4 wB
      (Reachable.removeStep wT3 wA wT3_reachable rfl) rfl) rfl

/-- Witness for C4 on the concrete split scenario: the tree after the three
insertions is reachable and every one of its nodes respects the bound. -/
theorem reachable_contents_le_maxElements_witness :
    Reachable wT3 ∧
    (∀ n ∈ allNodes wT3, (n.contents.length : Int) ≤ n.maxElements) :=
  ⟨wT3_reachable, reachable_contents_le_maxElements wT3 wT3_reachable⟩

/-- C2: pushing a valid element that is not yet in a reachable tree makes the
identity-predicate find return exactly that element; removing it succeeds and
the same query then returns nothing; a second remove of the same element
returns false and leaves the tree unchanged. -/
theorem push_find_remove_roundtrip (t : QuadTree) (e : Elem)
    (hr : Reachable t) (hv : validateElement e = Except.ok ())
    (hfresh : (dfsElems t).count e = 0) :
    push t e = Except.ok (pushListFuel (qtMeasure t) t [e]) ∧
    (pushListFuel (qtMeasure t) t [e]).find (fun i => i == e) = [e] ∧
    ∃ t2, removeOk (pushListFuel (qtMeasure t) t [e]) e = (true, t2) ∧
      t2.find (fun i => i == e) = [] ∧
      removeOk t2 e = (false, t2) := by
  have hWF := WF_of_reachable t hr
  have hva : validateAll [e] = Except.ok () := by
    simp [validateAll, hv]
  obtain ⟨hWF1, hsz1, hct1, -, -, -, -, -⟩ :=
    pushListFuel_spec (qtMeasure t) t [e] hWF le_rfl
  have hcount1 : (dfsElems (pushListFuel (qtMeasure t) t [e])).count e = 1 := by
    rw [hct1 e, hfresh]
    simp
  have hmem1 : e ∈ dfsElems (pushListFuel (qtMeasure t) t [e]) :=
    List.count_pos_iff.mp (by omega)
  obtain ⟨ih1, ih2, ih3, ih4, -, -, -, -, -⟩ :=
    (removeOk_spec (pushListFuel (qtMeasure t) t [e]) e hWF1).2 hmem1
  have hc2 : (dfsElems (removeOk (pushListFuel (qtMeasure t) t [e]) e).2).count e = 0 := by
    rw [ih4 e, hcount1]
    simp
  refine ⟨?_, ?_, (removeOk (pushListFuel (qtMeasure t) t [e]) e).2, ?_, ?_, ?_⟩
  · simp [push, pushAll, hva]
  · rw [find_eq_replicate, hcount1]
    rfl
  · have hpair : removeOk (pushListFuel (qtMeasure t) t [e]) e =
        ((removeOk (pushListFuel (qtMeasure t) t [e]) e).1,
          (removeOk (pushListFuel (qtMeasure t) t [e]) e).2) := rfl
    rw [ih1] at hpair
    exact hpair
  · rw [find_eq_replicate, hc2]
    rfl
  · have hnm2 : e ∉ dfsElems (removeOk (pushListFuel (qtMeasure t) t [e]) e).2 := by
      intro hmem
      have hp := List.count_pos_iff.mpr hmem
      omega
    exact (removeOk_spec (removeOk (pushListFuel (qtMeasure t) t [e]) e).2 e ih2).1 hnm2

/-- Witness for C2 on the freshly constructed 4 x 4 tree and the point
element at the origin. -/
theorem push_find_remove_roundtrip_witness :
    Reachable wT0 ∧ validateElement wA = Except.ok () ∧
    (dfsElems wT0).count wA = 0 ∧
    (push wT0 wA = Except.ok (pushListFuel (qtMeasure wT0) wT0 [wA]) ∧
      (pushListFuel (qtMeasure wT0) wT0 [wA]).find (fun i => i == wA) = [wA] ∧
      ∃ t2, removeOk (pushListFuel (qtMeasure wT0) wT0 [wA]) wA = (true, t2) ∧
        t2.find (fun i => i == wA) = [] ∧
        removeOk t2 wA = (false, t2)) :=
  ⟨wT0_reachable, rfl, by decide,
    push_find_remove_roundtrip wT0 wA wT0_reachable rfl (by decide)⟩

/-- Counterexample to C8 as stated: in the concrete reachable scenario the
root splits after the third insertion (contents empty, children live), the
two removals leave the subtree non-empty (sizes 2 then 1, never 0), and the
fourth push then lands in the root contents while the SE child is still
live — the node reverts to accumulating contents without its subtree ever
having emptied. -/
theorem split_leaf_reversion_cex :
    Reachable wT6 ∧
    (wT3.contents = [] ∧ (wT3.childNW).isSome = true ∧
      (wT3.childSE).isSome = true ∧ wT3.size = 3 ∧
      wT4.size = 2 ∧ wT5.size = 1 ∧
      wT6.contents = [wD] ∧ (wT6.childSE).isSome = true ∧ wT6.size = 2) :=
  ⟨wT6_reachable, by decide⟩

/-- C8 amended: when inserting a single-fit element at a node of non-minimal
extent would push size - oversized.length beyond maxElements, the insertion
step flushes the node contents — contents becomes empty and the element plus
every flushed contents element move into the per-quadrant candidate batches
(which are then pushed into children).  The node does not stay internal
forever: as the counterexample shows, removals that shrink
size - oversized.length back within maxElements let a later push accumulate
into contents again even while children are live. -/
theorem pushStep_flush_amended (qx qy qw qh qm : Int) (s : PushState) (e : Elem)
    (d : Dir) (hfit : fitting e qx qy qw qh = [d]) (hw : qw ≠ 1) (hh : qh ≠ 1)
    (hover : qm < s.size + 1 - (s.oversized.length : Int)) :
    (pushStep qx qy qw qh qm s e).contents = [] ∧
    batchesLen (pushStep qx qy qw qh qm s e) = batchesLen s + 1 + s.contents.length := by
  have hlen : (fitting e qx qy qw qh).length = 1 := by rw [hfit]; rfl
  simp only [pushStep]
  rw [if_neg (by push_neg; exact ⟨hlen, hw, hh⟩), if_neg (by omega)]
  have hfb := flushList_basic qx qy qw qh s.contents
    (PushState.addBatch { s with size := s.size + 1, contents := [] }
      ((fitting e qx qy qw qh).headD Dir.NW) e)
  have hab := addBatch_basic { s with size := s.size + 1, contents := ([] : List Elem) }
    ((fitting e qx qy qw qh).headD Dir.NW) e
  constructor
  · rw [hfb.1, hab.1]
  · rw [hfb.2.2.2, hab.2.2.2]
    simp only [batchesLen]

/-- Witness for C8 amended: at the 4 x 4 node with maxElements 1 and one
element already counted, inserting the SE-fitting point flushes contents. -/
theorem pushStep_flush_amended_witness :
    fitting wC 0 0 4 4 = [Dir.SE] ∧
    (pushStep 0 0 4 4 1 (PushState.mk [wA] [] 1 [] [] [] []) wC).contents = [] ∧
    batchesLen (pushStep 0 0 4 4 1 (PushState.mk [wA] [] 1 [] [] [] []) wC) =
      batchesLen (PushState.mk [wA] [] 1 [] [] [] []) + 1 +
        (PushState.mk ([wA] : List Elem) [] 1 [] [] [] []).contents.length :=
  ⟨by decide,
    (pushStep_flush_amended 0 0 4 4 1 (PushState.mk [wA] [] 1 [] [] [] []) wC Dir.SE
      (by decide) (by decide) (by decide) (by decide)).1,
    (pushStep_flush_amended 0 0 4 4 1 (PushState.mk [wA] [] 1 [] [] [] []) wC Dir.SE
      (by decide) (by decide) (by decide) (by decide)).2⟩

end QT
